import Mathlib

/-!
Verification of the freshservice-docs-scraper pipeline.

Shallow embedding of the chunking, deduplication, index-building,
retrieval, answer-extraction and redaction code, together with proofs of
the specified properties.  Python machine integers are modelled as `Nat`
(no overflow is reachable in these code paths), fallible operations
return `Option`/`Except`, and loops are embedded as fuel-indexed
structural recursions whose fuel is shown to be irrelevant once large
enough.
-/

namespace Scraper

/-- The text of one window: `" ".join(words[start:end])`. -/
def windowText (words : List String) (start e : Nat) : String :=
  " ".intercalate ((words.drop start).take (e - start))

/-- Embedding of `chunk_words` from `src/scraper/chunk_texts.py`, as a
fuel-indexed loop.  The Python loop is
`while start < N: end = min(start+chunk_size, N); emit words[start:end];
if end >= N: break; start = end - overlap; if start < 0: start = 0`.
Truncated `Nat` subtraction `end - overlap` models the clamp to 0 exactly. -/
def chunkWordsF (fuel : Nat) (words : List String) (chunk_size overlap : Nat)
    (start : Nat) : List (Nat × Nat × String) :=
  match fuel with
  | 0 => []
  | f + 1 =>
    if start < words.length then
      if words.length ≤ min (start + chunk_size) words.length then
        [(start, min (start + chunk_size) words.length,
          windowText words start (min (start + chunk_size) words.length))]
      else
        (start, min (start + chunk_size) words.length,
          windowText words start (min (start + chunk_size) words.length))
          :: chunkWordsF f words chunk_size overlap
              (min (start + chunk_size) words.length - overlap)
    else []

/-- `chunk_words(words, chunk_size, overlap)`: the list of
`(start_index, end_index, chunk_text)` triples, `end_index` exclusive.
The fuel `words.length` is sufficient whenever `overlap < chunk_size`
(proved in `chunk_words_terminates`); the defaults in the source are
300 and 50. -/
def chunk_words (words : List String) (chunk_size overlap : Nat) :
    List (Nat × Nat × String) :=
  chunkWordsF words.length words chunk_size overlap 0

/-- The word-offset windows of `chunk_words`. -/
def chunkRanges (words : List String) (chunk_size overlap : Nat) : List (Nat × Nat) :=
  (chunk_words words chunk_size overlap).map (fun t => (t.1, t.2.1))

theorem chunkWordsF_head (words : List String) (chunk_size overlap : Nat)
    (f start : Nat) (hs : start < words.length)
    (hf : words.length - start ≤ f) :
    ∃ t rest, chunkWordsF f words chunk_size overlap start
      = (start, min (start + chunk_size) words.length, t) :: rest := by
  cases f with
  | zero => omega
  | succ f =>
    rw [chunkWordsF, if_pos hs]
    by_cases he : words.length ≤ min (start + chunk_size) words.length
    · rw [if_pos he]; exact ⟨_, [], rfl⟩
    · rw [if_neg he]; exact ⟨_, _, rfl⟩

theorem chunkWordsF_bounds (words : List String) (chunk_size overlap : Nat)
    (hcs : 0 < chunk_size) :
    ∀ f start, ∀ p ∈ chunkWordsF f words chunk_size overlap start,
      p.1 < p.2.1 ∧ p.2.1 ≤ words.length ∧ p.2.1 - p.1 ≤ chunk_size := by
  intro f
  induction f with
  | zero => intro start p hp; simp [chunkWordsF] at hp
  | succ f ih =>
    intro start p hp
    rw [chunkWordsF] at hp
    by_cases hs : start < words.length
    · rw [if_pos hs] at hp
      by_cases he : words.length ≤ min (start + chunk_size) words.length
      · rw [if_pos he, List.mem_singleton] at hp
        subst hp
        dsimp only
        omega
      · rw [if_neg he, List.mem_cons] at hp
        rcases hp with hp | hp
        · subst hp
          dsimp only
          omega
        · exact ih _ p hp
    · rw [if_neg hs] at hp
      exact absurd hp (List.not_mem_nil p)

theorem chunkWordsF_coverage (words : List String) (chunk_size overlap : Nat)
    (hov : overlap < chunk_size) :
    ∀ f start, words.length - start ≤ f → ∀ i, start ≤ i → i < words.length →
      ∃ p ∈ chunkWordsF f words chunk_size overlap start, p.1 ≤ i ∧ i < p.2.1 := by
  intro f
  induction f with
  | zero => intro start hf i h1 h2; omega
  | succ f ih =>
    intro start hf i h1 h2
    have hs : start < words.length := by omega
    rw [chunkWordsF, if_pos hs]
    by_cases he : words.length ≤ min (start + chunk_size) words.length
    · rw [if_pos he]
      refine ⟨(start, min (start + chunk_size) words.length,
        windowText words start (min (start + chunk_size) words.length)),
        List.mem_singleton_self _, h1, ?_⟩
      dsimp only
      omega
    · rw [if_neg he]
      by_cases hi : i < min (start + chunk_size) words.length
      · exact ⟨(start, min (start + chunk_size) words.length,
          windowText words start (min (start + chunk_size) words.length)),
          List.mem_cons_self _ _, h1, hi⟩
      · have hlt : min (start + chunk_size) words.length = start + chunk_size := by omega
        have h3 : words.length - (min (start + chunk_size) words.length - overlap) ≤ f := by
          omega
        obtain ⟨p, hp, hp1, hp2⟩ :=
          ih (min (start + chunk_size) words.length - overlap) h3 i (by omega) h2
        exact ⟨p, List.mem_cons_of_mem _ hp, hp1, hp2⟩

theorem chunkWordsF_chain (words : List String) (chunk_size overlap : Nat)
    (hov : overlap < chunk_size) :
    ∀ f start, words.length - start ≤ f →
      List.Chain' (fun a b : Nat × Nat × String =>
        b.1 = a.2.1 - overlap ∧ a.2.1 - b.1 = overlap ∧ a.1 < b.1 ∧ a.2.1 < b.2.1)
        (chunkWordsF f words chunk_size overlap start) := by
  intro f
  induction f with
  | zero => intro start hf; simp [chunkWordsF]
  | succ f ih =>
    intro start hf
    rw [chunkWordsF]
    by_cases hs : start < words.length
    · rw [if_pos hs]
      by_cases he : words.length ≤ min (start + chunk_size) words.length
      · rw [if_pos he]
        exact List.chain'_singleton _
      · rw [if_neg he]
        have hlt : min (start + chunk_size) words.length = start + chunk_size := by omega
        have hs' : min (start + chunk_size) words.length - overlap < words.length := by omega
        have hf' : words.length - (min (start + chunk_size) words.length - overlap) ≤ f := by
          omega
        refine List.chain'_cons'.2 ⟨?_, ih _ hf'⟩
        intro q hq
        obtain ⟨t, rest, hr⟩ := chunkWordsF_head words chunk_size overlap f
          (min (start + chunk_size) words.length - overlap) hs' hf'
        rw [hr, List.head?_cons, Option.mem_def, Option.some.injEq] at hq
        subst hq
        dsimp only
        omega
    · rw [if_neg hs]
      exact List.chain'_nil

set_option maxRecDepth 8000 in
/-- C1: for `overlap < chunk_size` the windows of `chunk_words` cover
`[0, N)` with no gaps, each window has `end - start ≤ chunk_size`, every
pair of consecutive windows overlaps by exactly `overlap` words
(`next.start = prev.end - overlap` and `prev.end - next.start = overlap`),
and a 700-word input with `chunk_size = 300, overlap = 50` yields exactly
the ranges `[0,300), [250,550), [500,700)`. -/
theorem chunk_words_window_spec (words : List String) (chunk_size overlap : Nat)
    (hov : overlap < chunk_size) :
    (∀ i, i < words.length →
      ∃ p ∈ chunk_words words chunk_size overlap, p.1 ≤ i ∧ i < p.2.1)
    ∧ (∀ p ∈ chunk_words words chunk_size overlap,
        p.2.1 - p.1 ≤ chunk_size ∧ p.1 < p.2.1 ∧ p.2.1 ≤ words.length)
    ∧ List.Chain' (fun a b : Nat × Nat × String =>
        b.1 = a.2.1 - overlap ∧ a.2.1 - b.1 = overlap ∧ a.1 < b.1 ∧ a.2.1 < b.2.1)
        (chunk_words words chunk_size overlap)
    ∧ chunkRanges (List.replicate 700 "w") 300 50 = [(0, 300), (250, 550), (500, 700)] := by
  refine ⟨?_, ?_, ?_, ?_⟩
  · intro i hi
    exact chunkWordsF_coverage words chunk_size overlap hov words.length 0 (by omega) i
      (Nat.zero_le _) hi
  · intro p hp
    have h := chunkWordsF_bounds words chunk_size overlap (by omega) words.length 0 p hp
    exact ⟨h.2.2, h.1, h.2.1⟩
  · exact chunkWordsF_chain words chunk_size overlap hov words.length 0 (by omega)
  · decide

/-- Closed witness for `chunk_words_window_spec` at a concrete input. -/
theorem chunk_words_window_spec_witness :
    50 < 300 ∧ chunkRanges (List.replicate 700 "w") 300 50 = [(0, 300), (250, 550), (500, 700)] :=
  ⟨by decide, (chunk_words_window_spec [] 300 50 (by decide)).2.2.2⟩

/-- C2: the windowing loop of `chunk_words` terminates: under
`overlap < chunk_size` the result is independent of the fuel once the
fuel is at least `words.length - start` (so the loop makes finitely many
iterations), and on every iteration that does not emit the final window
the start offset strictly increases. -/
theorem chunk_words_terminates (words : List String) (chunk_size overlap : Nat)
    (hov : overlap < chunk_size) :
    (∀ f₁ f₂ start, words.length - start ≤ f₁ → words.length - start ≤ f₂ →
      chunkWordsF f₁ words chunk_size overlap start
        = chunkWordsF f₂ words chunk_size overlap start)
    ∧ (∀ start, start < words.length →
        ¬ (words.length ≤ min (start + chunk_size) words.length) →
        start < min (start + chunk_size) words.length - overlap) := by
  constructor
  · intro f₁
    induction f₁ with
    | zero =>
      intro f₂ start h1 h2
      have hs : ¬ start < words.length := by omega
      cases f₂ with
      | zero => rfl
      | succ f₂ => rw [chunkWordsF, chunkWordsF, if_neg hs]
    | succ f₁ ih =>
      intro f₂ start h1 h2
      by_cases hs : start < words.length
      · cases f₂ with
        | zero => omega
        | succ f₂ =>
          rw [chunkWordsF, chunkWordsF, if_pos hs, if_pos hs]
          by_cases he : words.length ≤ min (start + chunk_size) words.length
          · rw [if_pos he, if_pos he]
          · rw [if_neg he, if_neg he]
            have hlt : min (start + chunk_size) words.length = start + chunk_size := by omega
            rw [ih f₂ (min (start + chunk_size) words.length - overlap) (by omega) (by omega)]
      · cases f₂ with
        | zero => rw [chunkWordsF, chunkWordsF, if_neg hs]
        | succ f₂ => rw [chunkWordsF, chunkWordsF, if_neg hs, if_neg hs]
  · intro start hs hend
    omega

/-- Closed witness for `chunk_words_terminates` at a concrete input. -/
theorem chunk_words_terminates_witness :
    1 < 3 ∧ chunkWordsF 7 ["a", "b", "c", "d"] 3 1 0 = chunkWordsF 4 ["a", "b", "c", "d"] 3 1 0 :=
  ⟨by decide, (chunk_words_terminates ["a", "b", "c", "d"] 3 1 (by decide)).1 7 4 0
    (by decide) (by decide)⟩

end Scraper

namespace Py

/-- ASCII whitespace as recognized by Python `str.strip` / `\s`
(the inputs handled by this repository are ASCII). -/
def isWs (c : Char) : Bool :=
  c == ' ' || c == '\t' || c == '\n' || c == '\r' || c == '\x0b' || c == '\x0c'

/-- Python `str.strip()` on a character list. -/
def trimChars (l : List Char) : List Char :=
  ((l.dropWhile isWs).reverse.dropWhile isWs).reverse

/-- Python `str.strip()`. -/
def strip (s : String) : String :=
  ⟨trimChars s.data⟩

/-- Python string `<` (lexicographic by code point) on character lists. -/
def lexLt : List Char → List Char → Bool
  | _, [] => false
  | [], _ :: _ => true
  | a :: as, b :: bs =>
    if a.toNat < b.toNat then true
    else if b.toNat < a.toNat then false
    else lexLt as bs

/-- Python string `<=`, used by `sorted` on file paths. -/
def pyLe (s t : String) : Bool :=
  ! lexLt t.data s.data

theorem lexLt_irrefl : ∀ l : List Char, lexLt l l = false := by
  intro l
  induction l with
  | nil => rfl
  | cons a as ih => simp [lexLt, ih]

theorem lexLt_asymm : ∀ l₁ l₂ : List Char, lexLt l₁ l₂ = true → lexLt l₂ l₁ = true → False := by
  intro l₁
  induction l₁ with
  | nil => intro l₂ h1 h2; cases l₂ <;> simp [lexLt] at h1 h2
  | cons a as ih =>
    intro l₂ h1 h2
    cases l₂ with
    | nil => simp [lexLt] at h1
    | cons b bs =>
      rw [lexLt] at h1 h2
      by_cases hab : a.toNat < b.toNat
      · have : ¬ b.toNat < a.toNat := by omega
        simp [hab, this] at h2
      · by_cases hba : b.toNat < a.toNat
        · simp [hab, hba] at h1
        · simp [hab, hba] at h1 h2
          exact ih bs h1 h2

theorem lexLt_connex : ∀ l₁ l₂ : List Char, lexLt l₁ l₂ = false → lexLt l₂ l₁ = false → l₁ = l₂ := by
  intro l₁
  induction l₁ with
  | nil => intro l₂ h1 _; cases l₂ with
    | nil => rfl
    | cons b bs => simp [lexLt] at h1
  | cons a as ih =>
    intro l₂ h1 h2
    cases l₂ with
    | nil => simp [lexLt] at h2
    | cons b bs =>
      rw [lexLt] at h1 h2
      by_cases hab : a.toNat < b.toNat
      · simp [hab] at h1
      · by_cases hba : b.toNat < a.toNat
        · simp [hab, hba] at h2
        · simp [hab, hba] at h1 h2
          have htn : a.toNat = b.toNat := by omega
          have hval : a = b := Char.ext (UInt32.ext htn)
          rw [hval, ih bs h1 h2]

theorem lexLt_trans : ∀ l₁ l₂ l₃ : List Char,
    lexLt l₁ l₂ = true → lexLt l₂ l₃ = true → lexLt l₁ l₃ = true := by
  intro l₁
  induction l₁ with
  | nil =>
    intro l₂ l₃ h1 h2
    cases l₂ with
    | nil => simp [lexLt] at h1
    | cons b bs => cases l₃ with
      | nil => simp [lexLt] at h2
      | cons c cs => rfl
  | cons a as ih =>
    intro l₂ l₃ h1 h2
    cases l₂ with
    | nil => simp [lexLt] at h1
    | cons b bs =>
      cases l₃ with
      | nil => simp [lexLt] at h2
      | cons c cs =>
        rw [lexLt] at h1 h2 ⊢
        by_cases hab : a.toNat < b.toNat
        · by_cases hbc : b.toNat < c.toNat
          · have : a.toNat < c.toNat := by omega
            simp [this]
          · by_cases hcb : c.toNat < b.toNat
            · simp [hbc, hcb] at h2
            · have : a.toNat < c.toNat := by omega
              simp [this]
        · by_cases hba : b.toNat < a.toNat
          · simp [hab, hba] at h1
          · by_cases hbc : b.toNat < c.toNat
            · have : a.toNat < c.toNat := by omega
              simp [this]
            · by_cases hcb : c.toNat < b.toNat
              · simp [hbc, hcb] at h2
              · have h1' : lexLt as bs = true := by simpa [hab, hba] using h1
                have h2' : lexLt bs cs = true := by simpa [hbc, hcb] using h2
                have hac : ¬ a.toNat < c.toNat := by omega
                have hca : ¬ c.toNat < a.toNat := by omega
                simp [hac, hca]
                exact ih bs cs h1' h2'

theorem pyLe_trans (a b c : String) (h1 : pyLe a b = true) (h2 : pyLe b c = true) :
    pyLe a c = true := by
  unfold pyLe at h1 h2 ⊢
  simp only [Bool.not_eq_true'] at h1 h2
  simp only [Bool.not_eq_true']
  by_cases hca : lexLt c.data a.data = true
  · by_cases hba : lexLt b.data a.data = true
    · rw [hba] at h1; exact absurd h1 (by simp)
    · by_cases hcb : lexLt c.data b.data = true
      · rw [hcb] at h2; exact absurd h2 (by simp)
      · have hb : lexLt b.data a.data = false := by simpa using hba
        have hc : lexLt c.data b.data = false := by simpa using hcb
        by_cases hbc : lexLt b.data c.data = true
        · exact absurd (lexLt_trans _ _ _ hbc hca) (by simp [hb])
        · have : b.data = c.data := lexLt_connex _ _ (by simpa using hbc) hc
          rw [← this] at hca
          simp [hca] at h1
  · simpa using hca

theorem pyLe_total (a b : String) : (pyLe a b || pyLe b a) = true := by
  unfold pyLe
  by_cases h : lexLt b.data a.data = true
  · have : lexLt a.data b.data = false := by
      by_cases h2 : lexLt a.data b.data = true
      · exact absurd (lexLt_asymm _ _ h h2) (fun f => f)
      · simpa using h2
    simp [this]
  · simp [show lexLt b.data a.data = false by simpa using h]

end Py

namespace Dedup

/-- One chunk record as stored in a `data/clean/chunks/*.json` file
(the fields read and rewritten by `remove_duplicate_chunks.main`). -/
structure ChunkRec where
  chunk_id : String
  source_fragment : String
  title : String
  slug : String
  chunk_index : Nat
  text : String
  source_file : String
deriving DecidableEq

/-- One file in the chunks folder: its path and its parsed content
(`none` models an unreadable/malformed file, which the source skips
with a message while still counting it as scanned). -/
structure ChunkFile where
  path : String
  parsed : Option ChunkRec
deriving DecidableEq

/-- A duplicate group of `seen`: the dedup key and the file list.
The source keys `seen` by `sha256(text.encode()).hexdigest()`; the claim
and the spec assume this hash collision-free on the texts involved, so
the key is modelled by the trimmed text itself. -/
abbrev SeenEntry := String × List String

/-- `seen[h]["files"].append(path)` for the group keyed `t`. -/
def appendDup : List SeenEntry → String → String → List SeenEntry
  | [], _, _ => []
  | (k, ps) :: rest, t, path =>
    if k = t then (k, ps ++ [path]) :: rest
    else (k, ps) :: appendDup rest t path

/-- `h in seen`. -/
def seenHas (seen : List SeenEntry) (t : String) : Bool :=
  seen.any (fun g => g.1 == t)

/-- The deduplication scan of `remove_duplicate_chunks.main`, over the
files in processing order.  Returns the emitted `(path, out_obj)` pairs
(the JSONL lines, with `text` trimmed), the final `seen` table and the
`total` and `unique` counters. -/
def dedupScan : List ChunkFile → List SeenEntry →
    List (String × ChunkRec) × List SeenEntry × Nat × Nat
  | [], seen => ([], seen, 0, 0)
  | ⟨_, none⟩ :: fs, seen =>
    let r := dedupScan fs seen
    (r.1, r.2.1, r.2.2.1 + 1, r.2.2.2)
  | ⟨path, some j⟩ :: fs, seen =>
    if Py.strip j.text = "" then
      let r := dedupScan fs seen
      (r.1, r.2.1, r.2.2.1 + 1, r.2.2.2)
    else if seenHas seen (Py.strip j.text) then
      let r := dedupScan fs (appendDup seen (Py.strip j.text) path)
      (r.1, r.2.1, r.2.2.1 + 1, r.2.2.2)
    else
      let r := dedupScan fs ((Py.strip j.text, [path]) :: seen)
      ((path, { j with text := Py.strip j.text }) :: r.1, r.2.1, r.2.2.1 + 1, r.2.2.2 + 1)

/-- Insert a file into a path-sorted list, before the first entry whose
path is not smaller (so equal paths keep their original order). -/
def insertByPath (f : ChunkFile) : List ChunkFile → List ChunkFile
  | [] => [f]
  | g :: gs => if Py.pyLe f.path g.path then f :: g :: gs else g :: insertByPath f gs

/-- The chunks folder scan order: `sorted(CHUNKS_DIR.glob("*.json"))`,
i.e. lexicographic (code-point) order of the file paths.  Python's
`sorted` is a stable sort, modelled here by stable insertion sort
(stability plus sortedness determine the result uniquely). -/
def sortByPath : List ChunkFile → List ChunkFile
  | [] => []
  | f :: fs => insertByPath f (sortByPath fs)

/-- `remove_duplicate_chunks.main`: scan the chunk files in sorted path
order, starting from an empty `seen` table. -/
def dedupMain (files : List ChunkFile) :
    List (String × ChunkRec) × List SeenEntry × Nat × Nat :=
  dedupScan (sortByPath files) []

/-- The readable records of the folder, normalized the way the scan
sees them: `(path, record with text trimmed)`, in scan order. -/
def normRecs : List ChunkFile → List (String × ChunkRec)
  | [] => []
  | ⟨_, none⟩ :: fs => normRecs fs
  | ⟨path, some r⟩ :: fs => (path, { r with text := Py.strip r.text }) :: normRecs fs

theorem seenHas_appendDup (s : List SeenEntry) (t p x : String) :
    seenHas (appendDup s t p) x = seenHas s x := by
  induction s with
  | nil => rfl
  | cons g rest ih =>
    obtain ⟨k, ps⟩ := g
    rw [appendDup]
    by_cases hk : k = t
    · rw [if_pos hk]; rfl
    · rw [if_neg hk]
      simp only [seenHas, List.any_cons]
      rw [show (rest.any fun g => g.1 == x) = seenHas rest x from rfl, ← ih]
      rfl

theorem mem_appendDup (s : List SeenEntry) (t p : String) :
    ∀ g ∈ appendDup s t p, ∃ g' ∈ s, g.1 = g'.1 := by
  induction s with
  | nil => intro g hg; simp [appendDup] at hg
  | cons e rest ih =>
    obtain ⟨k, ps⟩ := e
    intro g hg
    rw [appendDup] at hg
    by_cases hk : k = t
    · rw [if_pos hk, List.mem_cons] at hg
      rcases hg with hg | hg
      · exact ⟨(k, ps), List.mem_cons_self _ _, by rw [hg]⟩
      · exact ⟨g, List.mem_cons_of_mem _ hg, rfl⟩
    · rw [if_neg hk, List.mem_cons] at hg
      rcases hg with hg | hg
      · exact ⟨(k, ps), List.mem_cons_self _ _, by rw [hg]⟩
      · obtain ⟨g', hg', he⟩ := ih g hg
        exact ⟨g', List.mem_cons_of_mem _ hg', he⟩

theorem dedupScan_total : ∀ (fs : List ChunkFile) (seen : List SeenEntry),
    (dedupScan fs seen).2.2.1 = fs.length := by
  intro fs
  induction fs with
  | nil => intro seen; rfl
  | cons f fs ih =>
    intro seen
    obtain ⟨path, pj⟩ := f
    cases pj with
    | none => simp only [dedupScan, ih, List.length_cons]
    | some j =>
      rw [dedupScan]
      by_cases ht : Py.strip j.text = ""
      · simp only [if_pos ht, ih, List.length_cons]
      · rw [if_neg ht]
        by_cases hs : seenHas seen (Py.strip j.text) = true
        · simp only [if_pos hs, ih, List.length_cons]
        · simp only [if_neg hs, ih, List.length_cons]

theorem dedupScan_uniq : ∀ (fs : List ChunkFile) (seen : List SeenEntry),
    (dedupScan fs seen).2.2.2 = (dedupScan fs seen).1.length := by
  intro fs
  induction fs with
  | nil => intro seen; rfl
  | cons f fs ih =>
    intro seen
    obtain ⟨path, pj⟩ := f
    cases pj with
    | none => simp only [dedupScan, ih]
    | some j =>
      rw [dedupScan]
      by_cases ht : Py.strip j.text = ""
      · simp only [if_pos ht, ih]
      · rw [if_neg ht]
        by_cases hs : seenHas seen (Py.strip j.text) = true
        · simp only [if_pos hs, ih]
        · simp only [if_neg hs, ih, List.length_cons]

theorem dedupScan_sublist : ∀ (fs : List ChunkFile) (seen : List SeenEntry),
    (dedupScan fs seen).1.Sublist (normRecs fs) := by
  intro fs
  induction fs with
  | nil => intro seen; exact List.Sublist.refl _
  | cons f fs ih =>
    intro seen
    obtain ⟨path, pj⟩ := f
    cases pj with
    | none => simpa only [dedupScan, normRecs] using ih seen
    | some j =>
      rw [dedupScan, normRecs]
      by_cases ht : Py.strip j.text = ""
      · exact if_pos ht ▸ List.Sublist.cons _ (ih seen)
      · rw [if_neg ht]
        by_cases hs : seenHas seen (Py.strip j.text) = true
        · exact if_pos hs ▸ List.Sublist.cons _ (ih _)
        · exact if_neg hs ▸ List.Sublist.cons₂ _ (ih _)

theorem dedupScan_out_txt : ∀ (fs : List ChunkFile) (seen : List SeenEntry),
    ∀ p ∈ (dedupScan fs seen).1, p.2.text ≠ "" ∧ seenHas seen p.2.text = false := by
  intro fs
  induction fs with
  | nil => intro seen p hp; simp [dedupScan] at hp
  | cons f fs ih =>
    intro seen p hp
    obtain ⟨path, pj⟩ := f
    cases pj with
    | none => exact ih seen p hp
    | some j =>
      rw [dedupScan] at hp
      by_cases ht : Py.strip j.text = ""
      · rw [if_pos ht] at hp
        exact ih seen p hp
      · rw [if_neg ht] at hp
        by_cases hs : seenHas seen (Py.strip j.text) = true
        · rw [if_pos hs] at hp
          have h := ih _ p hp
          exact ⟨h.1, by rw [← seenHas_appendDup seen (Py.strip j.text) path p.2.text]; exact h.2⟩
        · rw [if_neg hs] at hp
          rcases List.mem_cons.1 hp with hp | hp
          · subst hp
            refine ⟨ht, by simpa using hs⟩
          · have h := ih _ p hp
            have h2 := h.2
            simp only [seenHas, List.any_cons, Bool.or_eq_false_iff] at h2
            exact ⟨h.1, h2.2⟩

theorem dedupScan_nodup : ∀ (fs : List ChunkFile) (seen : List SeenEntry),
    ((dedupScan fs seen).1.map (fun p => p.2.text)).Nodup := by
  intro fs
  induction fs with
  | nil => intro seen; simp [dedupScan]
  | cons f fs ih =>
    intro seen
    obtain ⟨path, pj⟩ := f
    cases pj with
    | none => exact ih seen
    | some j =>
      rw [dedupScan]
      by_cases ht : Py.strip j.text = ""
      · rw [if_pos ht]; exact ih seen
      · rw [if_neg ht]
        by_cases hs : seenHas seen (Py.strip j.text) = true
        · rw [if_pos hs]; exact ih _
        · rw [if_neg hs]
          refine List.nodup_cons.2 ⟨?_, ih _⟩
          intro hmem
          obtain ⟨p, hp, hpe⟩ := List.mem_map.1 hmem
          have h := (dedupScan_out_txt fs _ p hp).2
          simp only [seenHas, List.any_cons, Bool.or_eq_false_iff] at h
          have : (Py.strip j.text == p.2.text) = false := h.1
          rw [hpe] at this
          simp at this

theorem dedupScan_mem : ∀ (fs : List ChunkFile) (seen : List SeenEntry),
    ∀ q ∈ normRecs fs, q.2.text ≠ "" → seenHas seen q.2.text = false →
      q.2.text ∈ (dedupScan fs seen).1.map (fun p => p.2.text) := by
  intro fs
  induction fs with
  | nil => intro seen q hq; simp [normRecs] at hq
  | cons f fs ih =>
    intro seen q hq hqt hqs
    obtain ⟨path, pj⟩ := f
    cases pj with
    | none => exact ih seen q hq hqt hqs
    | some j =>
      rw [normRecs] at hq
      rw [dedupScan]
      by_cases ht : Py.strip j.text = ""
      · rw [if_pos ht]
        rcases List.mem_cons.1 hq with hq | hq
        · exact absurd (by rw [hq] at hqt ⊢; exact ht) hqt
        · exact ih seen q hq hqt hqs
      · rw [if_neg ht]
        by_cases hs : seenHas seen (Py.strip j.text) = true
        · rw [if_pos hs]
          rcases List.mem_cons.1 hq with hq | hq
          · rw [hq] at hqs
            dsimp only at hqs
            rw [hqs] at hs
            exact absurd hs (by simp)
          · rw [← seenHas_appendDup seen (Py.strip j.text) path q.2.text] at hqs
            exact ih _ q hq hqt hqs
        · rw [if_neg hs]
          rcases List.mem_cons.1 hq with hq | hq
          · rw [hq]
            exact List.mem_cons_self _ _
          · by_cases hqj : q.2.text = Py.strip j.text
            · rw [hqj]
              exact List.mem_cons_self _ _
            · refine List.mem_cons_of_mem _ (ih _ q hq hqt ?_)
              simp only [seenHas, List.any_cons, Bool.or_eq_false_iff]
              exact ⟨by simpa using fun h => hqj h.symm, hqs⟩

theorem dedupScan_find : ∀ (fs : List ChunkFile) (seen : List SeenEntry),
    ∀ p ∈ (dedupScan fs seen).1,
      (normRecs fs).find? (fun q => q.2.text == p.2.text) = some p := by
  intro fs
  induction fs with
  | nil => intro seen p hp; simp [dedupScan] at hp
  | cons f fs ih =>
    intro seen p hp
    obtain ⟨path, pj⟩ := f
    cases pj with
    | none => exact ih seen p hp
    | some j =>
      rw [dedupScan] at hp
      rw [normRecs]
      by_cases ht : Py.strip j.text = ""
      · rw [if_pos ht] at hp
        rw [List.find?_cons_of_neg]
        · exact ih seen p hp
        · have := (dedupScan_out_txt fs seen p hp).1
          dsimp only
          rw [ht]
          simpa using fun h => this h.symm
      · rw [if_neg ht] at hp
        by_cases hs : seenHas seen (Py.strip j.text) = true
        · rw [if_pos hs] at hp
          rw [List.find?_cons_of_neg]
          · exact ih _ p hp
          · have h := (dedupScan_out_txt fs _ p hp).2
            rw [seenHas_appendDup] at h
            dsimp only
            intro hc
            rw [show Py.strip j.text = p.2.text from by simpa using hc] at hs
            rw [hs] at h
            exact absurd h (by simp)
        · rw [if_neg hs] at hp
          rcases List.mem_cons.1 hp with hp | hp
          · subst hp
            rw [List.find?_cons_of_pos]
            simp
          · rw [List.find?_cons_of_neg]
            · exact ih _ p hp
            · have h := (dedupScan_out_txt fs _ p hp).2
              simp only [seenHas, List.any_cons, Bool.or_eq_false_iff] at h
              dsimp only
              intro hc
              have : (Py.strip j.text == p.2.text) = true := by simpa using hc
              rw [this] at h
              exact absurd h.1 (by simp)

theorem dedupScan_seen_nonempty : ∀ (fs : List ChunkFile) (seen : List SeenEntry),
    (∀ g ∈ seen, g.1 ≠ "") → ∀ g ∈ (dedupScan fs seen).2.1, g.1 ≠ "" := by
  intro fs
  induction fs with
  | nil => intro seen h g hg; exact h g hg
  | cons f fs ih =>
    intro seen h g hg
    obtain ⟨path, pj⟩ := f
    cases pj with
    | none => exact ih seen h g hg
    | some j =>
      rw [dedupScan] at hg
      by_cases ht : Py.strip j.text = ""
      · rw [if_pos ht] at hg
        exact ih seen h g hg
      · rw [if_neg ht] at hg
        by_cases hs : seenHas seen (Py.strip j.text) = true
        · rw [if_pos hs] at hg
          refine ih _ ?_ g hg
          intro g' hg'
          obtain ⟨g'', hg'', he⟩ := mem_appendDup seen (Py.strip j.text) path g' hg'
          rw [he]
          exact h g'' hg''
        · rw [if_neg hs] at hg
          refine ih _ ?_ g hg
          intro g' hg'
          rcases List.mem_cons.1 hg' with hg' | hg'
          · rw [hg']
            exact ht
          · exact h g' hg'

/-- C5: the deduplication scan emits exactly the subsequence of first
occurrences of each distinct trimmed text value (the sha256 content key
assumed collision-free): the output is a sublist of the scanned records
in which every kept text is non-empty, no trimmed text repeats, every
distinct non-empty trimmed text of the input appears, and each kept
record is the first scanned record bearing its trimmed text; the
reported counters satisfy `total` = number of chunk files scanned and
`unique` = number of distinct non-empty trimmed texts; and empty-text
chunks never enter the `seen` table, so they are not counted as
duplicates of each other. -/
theorem remove_duplicate_chunks_spec (fs : List ChunkFile) :
    ((dedupScan fs []).1.Sublist (normRecs fs))
    ∧ (∀ p ∈ (dedupScan fs []).1, p.2.text ≠ "")
    ∧ (((dedupScan fs []).1.map (fun p => p.2.text)).Nodup)
    ∧ (∀ q ∈ normRecs fs, q.2.text ≠ "" →
        q.2.text ∈ (dedupScan fs []).1.map (fun p => p.2.text))
    ∧ (∀ p ∈ (dedupScan fs []).1,
        (normRecs fs).find? (fun q => q.2.text == p.2.text) = some p)
    ∧ (dedupScan fs []).2.2.1 = fs.length
    ∧ (dedupScan fs []).2.2.2
        = (((normRecs fs).map (fun q => q.2.text)).filter (fun t => t ≠ "")).dedup.length
    ∧ (∀ g ∈ (dedupScan fs []).2.1, g.1 ≠ "") := by
  refine ⟨dedupScan_sublist fs [], fun p hp => (dedupScan_out_txt fs [] p hp).1,
    dedupScan_nodup fs [], fun q hq hqt => dedupScan_mem fs [] q hq hqt rfl,
    dedupScan_find fs [], dedupScan_total fs [], ?_,
    dedupScan_seen_nonempty fs [] (by intro g hg; simp at hg)⟩
  rw [dedupScan_uniq fs []]
  have hnd := dedupScan_nodup fs []
  have hset : ((dedupScan fs []).1.map (fun p => p.2.text)).toFinset
      = (((normRecs fs).map (fun q => q.2.text)).filter (fun t => t ≠ "")).toFinset := by
    apply Finset.ext
    intro x
    simp only [List.mem_toFinset, List.mem_filter, List.mem_map, decide_not]
    constructor
    · rintro ⟨p, hp, rfl⟩
      have h1 := (dedupScan_out_txt fs [] p hp).1
      have h2 := (dedupScan_sublist fs []).mem hp
      exact ⟨⟨p, h2, rfl⟩, by simpa using h1⟩
    · rintro ⟨⟨q, hq, rfl⟩, hne⟩
      have hne' : q.2.text ≠ "" := by simpa using hne
      obtain ⟨p, hp, hpe⟩ := List.mem_map.1 (dedupScan_mem fs [] q hq hne' rfl)
      exact ⟨p, hp, hpe⟩
  calc (dedupScan fs []).1.length
      = ((dedupScan fs []).1.map (fun p => p.2.text)).length := (List.length_map _ _).symm
    _ = ((dedupScan fs []).1.map (fun p => p.2.text)).toFinset.card :=
        (List.toFinset_card_of_nodup hnd).symm
    _ = (((normRecs fs).map (fun q => q.2.text)).filter (fun t => t ≠ "")).toFinset.card := by
        rw [hset]
    _ = (((normRecs fs).map (fun q => q.2.text)).filter (fun t => t ≠ "")).dedup.length :=
        List.card_toFinset _

/-- The paths of the normalized records are a sublist of the folder's
paths, in order. -/
theorem normRecs_paths_sublist : ∀ fs : List ChunkFile,
    ((normRecs fs).map (fun q => q.1)).Sublist (fs.map (fun f => f.path)) := by
  intro fs
  induction fs with
  | nil => exact List.Sublist.refl _
  | cons f fs ih =>
    obtain ⟨path, pj⟩ := f
    cases pj with
    | none => exact ih.cons _
    | some j => exact ih.cons₂ _

theorem mem_insertByPath (f : ChunkFile) : ∀ l (x : ChunkFile),
    x ∈ insertByPath f l ↔ x = f ∨ x ∈ l := by
  intro l
  induction l with
  | nil => intro x; simp [insertByPath]
  | cons g gs ih =>
    intro x
    rw [insertByPath]
    by_cases h : Py.pyLe f.path g.path = true
    · rw [if_pos h]
      simp [List.mem_cons]
    · rw [if_neg h]
      simp only [List.mem_cons, ih]
      tauto

theorem pairwise_insertByPath (f : ChunkFile) : ∀ l,
    List.Pairwise (fun a b : ChunkFile => Py.pyLe a.path b.path = true) l →
    List.Pairwise (fun a b : ChunkFile => Py.pyLe a.path b.path = true) (insertByPath f l) := by
  intro l
  induction l with
  | nil => intro _; simp [insertByPath]
  | cons g gs ih =>
    intro hp
    rw [insertByPath]
    obtain ⟨hg, hgs⟩ := List.pairwise_cons.1 hp
    by_cases h : Py.pyLe f.path g.path = true
    · rw [if_pos h]
      refine List.pairwise_cons.2 ⟨?_, hp⟩
      intro b hb
      rcases List.mem_cons.1 hb with rfl | hb
      · exact h
      · exact Py.pyLe_trans _ _ _ h (hg b hb)
    · rw [if_neg h]
      refine List.pairwise_cons.2 ⟨?_, ih hgs⟩
      intro b hb
      rcases (mem_insertByPath f gs b).1 hb with hbf | hb
      · rw [hbf]
        have htot := Py.pyLe_total f.path g.path
        rcases (by simpa using htot :
            Py.pyLe f.path g.path = true ∨ Py.pyLe g.path f.path = true) with h1 | h1
        · exact absurd h1 h
        · exact h1
      · exact hg b hb

theorem sortByPath_sorted (files : List ChunkFile) :
    List.Pairwise (fun a b : ChunkFile => Py.pyLe a.path b.path = true)
      (sortByPath files) := by
  induction files with
  | nil => simp [sortByPath]
  | cons f fs ih => exact pairwise_insertByPath f _ ih

/-- C6, corrected form: `remove_duplicate_chunks.main` scans
`sorted(CHUNKS_DIR.glob("*.json"))`, so emission follows the
lexicographic (code-point) order of the chunk file paths: any two kept
chunks are emitted in non-decreasing path order. -/
theorem dedup_emission_path_sorted (files : List ChunkFile) :
    List.Pairwise (fun a b : String × ChunkRec => Py.pyLe a.1 b.1 = true)
      ((dedupMain files).1) := by
  have hpaths : List.Pairwise (fun a b : String => Py.pyLe a b = true)
      ((sortByPath files).map (fun f => f.path)) :=
    List.pairwise_map.2 (sortByPath_sorted files)
  have hnorm : List.Pairwise (fun a b : String => Py.pyLe a b = true)
      ((normRecs (sortByPath files)).map (fun q => q.1)) :=
    List.Pairwise.sublist (normRecs_paths_sublist (sortByPath files)) hpaths
  have hout : ((dedupMain files).1.map (fun q => q.1)).Sublist
      ((normRecs (sortByPath files)).map (fun q => q.1)) :=
    (dedupScan_sublist (sortByPath files) []).map _
  exact List.pairwise_map.1 (List.Pairwise.sublist hout hnorm)

/-- A fragment whose chunk files are `..chunk2.json` and `..chunk10.json`
with distinct non-empty texts: both are kept. -/
def exFile2 : ChunkFile :=
  ⟨"s__f__chunk2.json", some ⟨"s__f__chunk2", "f", "t", "s", 2, "A", "src"⟩⟩

/-- Companion file with chunk index 10. -/
def exFile10 : ChunkFile :=
  ⟨"s__f__chunk10.json", some ⟨"s__f__chunk10", "f", "t", "s", 10, "B", "src"⟩⟩

/-- C6 counterexample: on the two-chunk fragment above, both chunks are
kept and belong to the same fragment, but the deduplicator emits
chunk_index 10 before chunk_index 2 (because `"s__f__chunk10.json"`
sorts lexicographically before `"s__f__chunk2.json"`), refuting the
claim that the smaller chunk_index is always emitted first. -/
theorem dedup_emission_not_index_sorted :
    ((dedupMain [exFile2, exFile10]).1.map (fun p => p.2.source_fragment) = ["f", "f"])
    ∧ ((dedupMain [exFile2, exFile10]).1.map (fun p => p.2.chunk_index) = [10, 2])
    ∧ ¬ (∀ i j : Fin (dedupMain [exFile2, exFile10]).1.length, i < j →
          ((dedupMain [exFile2, exFile10]).1.get i).2.source_fragment
            = ((dedupMain [exFile2, exFile10]).1.get j).2.source_fragment →
          ((dedupMain [exFile2, exFile10]).1.get i).2.chunk_index
            < ((dedupMain [exFile2, exFile10]).1.get j).2.chunk_index) := by
  refine ⟨by decide, by decide, by decide⟩

end Dedup

namespace Embeddings

/-- A record of `deduped_chunks.jsonl` (same field set as a chunk file). -/
abbrev Record := Dedup.ChunkRec

/-- One metadata record of `meta.jsonl`, as written by
`build_faiss_index_local.build_index`. -/
structure Meta where
  chunk_id : String
  source_fragment : String
  title : String
  slug : String
  chunk_index : Nat
  source_file : String
  text_preview : String
deriving DecidableEq

/-- The metadata written for one record:
`text_preview` is `(text or "")[:400]`. -/
def toMeta (r : Record) : Meta :=
  ⟨r.chunk_id, r.source_fragment, r.title, r.slug, r.chunk_index, r.source_file,
    ⟨r.text.data.take 400⟩⟩

/-- The batch slices of the build loop: batch `i` is
`records[i*batch_size : min((i+1)*batch_size, n)]`, for
`i < n_batches = ceil(n / batch_size)`. -/
def batchSlices {α : Type} (l : List α) (batch_size : Nat) : List (List α) :=
  (List.range ((l.length + batch_size - 1) / batch_size)).map (fun i =>
    (l.drop (i * batch_size)).take (min ((i + 1) * batch_size) l.length - i * batch_size))

/-- Embedding of `build_index` from
`src/embeddings/build_faiss_index_local.py`.  The external
`SentenceTransformer.encode` is modelled, per the spec's embedding
boundary, as a pure per-text function `embed` applied to each batch
element in order, and the per-row L2-normalization (a floating-point
per-row operation, including the zero-norm substitution) as a per-row
function `normalizeRow`.  Returns the stored vector matrix (row list,
`np.vstack` of the batches) and the metadata list. -/
def build_index (embed : String → List Int) (normalizeRow : List Int → List Int)
    (records : List Record) (batch_size : Nat) : List (List Int) × List Meta :=
  (((batchSlices records batch_size).map (fun batch =>
      batch.map (fun r => normalizeRow (embed r.text)))).flatten,
   ((batchSlices records batch_size).map (fun batch => batch.map toMeta)).flatten)

/-- `build_faiss_index_local.main`: loads the records and refuses to
build when there are zero of them (`"No chunks found. Exiting."`),
returning without writing any artifact (`none`); otherwise builds with
the default batch size 64 and saves index and metadata (`some`). -/
def buildMainModel (embed : String → List Int) (normalizeRow : List Int → List Int)
    (records : List Record) : Option (List (List Int) × List Meta) :=
  if records.length = 0 then none
  else some (build_index embed normalizeRow records 64)

theorem batchSlices_cons {α : Type} (l : List α) (b : Nat) (hb : 0 < b) (hl : l ≠ []) :
    batchSlices l b = l.take (min b l.length) :: batchSlices (l.drop b) b := by
  have hn : 0 < l.length := List.length_pos.2 hl
  have hnb : (l.length + b - 1) / b = (l.length - 1) / b + 1 := by
    have h1 : l.length + b - 1 = (l.length - 1) + b := by omega
    rw [h1, Nat.add_div_right _ hb]
  have hnb' : ((l.drop b).length + b - 1) / b = (l.length - 1) / b := by
    rw [List.length_drop]
    by_cases hc : l.length ≤ b
    · have h1 : l.length - b = 0 := by omega
      rw [h1]
      have h2 : (l.length - 1) / b = 0 := Nat.div_eq_of_lt (by omega)
      rw [h2]
      exact Nat.div_eq_of_lt (by omega)
    · have h1 : l.length - b + b - 1 = (l.length - 1 - b) + b := by omega
      rw [h1, Nat.add_div_right _ hb]
      have h2 : l.length - 1 = (l.length - 1 - b) + b := by omega
      conv_rhs => rw [h2, Nat.add_div_right _ hb]
  rw [batchSlices, hnb, List.range_succ_eq_map, List.map_cons]
  congr 1
  · simp only [Nat.zero_mul, List.drop_zero, Nat.one_mul, Nat.zero_add, Nat.sub_zero]
  · rw [List.map_map, batchSlices, hnb', List.length_drop]
    apply List.map_congr_left
    intro i hi
    have hm := List.mem_range.1 hi
    have h1 : i + 1 ≤ (l.length - 1) / b := by omega
    have h2 : (i + 1) * b ≤ ((l.length - 1) / b) * b := Nat.mul_le_mul_right b h1
    have h3 : ((l.length - 1) / b) * b ≤ l.length - 1 := Nat.div_mul_le_self _ _
    have e1 : (i + 1) * b = i * b + b := by ring
    have e2 : (i + 1 + 1) * b = i * b + b + b := by ring
    simp only [Function.comp, Nat.succ_eq_add_one]
    rw [List.drop_drop]
    have e3 : b + i * b = (i + 1) * b := by ring
    rw [e3]
    congr 1
    omega

theorem flatten_batchSlices {α : Type} (b : Nat) (hb : 0 < b) :
    ∀ l : List α, (batchSlices l b).flatten = l := by
  suffices H : ∀ (n : Nat) (l : List α), l.length ≤ n → (batchSlices l b).flatten = l by
    intro l
    exact H l.length l le_rfl
  intro n
  induction n with
  | zero =>
    intro l hl
    have hnil : l = [] := List.eq_nil_of_length_eq_zero (by omega)
    subst hnil
    have : ((List.nil (α := α)).length + b - 1) / b = 0 := Nat.div_eq_of_lt (by simp; omega)
    rw [batchSlices, this]
    rfl
  | succ n ih =>
    intro l hl
    cases l with
    | nil =>
      have : ((List.nil (α := α)).length + b - 1) / b = 0 := Nat.div_eq_of_lt (by simp; omega)
      rw [batchSlices, this]
      rfl
    | cons x xs =>
      rw [batchSlices_cons _ _ hb (by simp), List.flatten_cons,
        ih _ (by simp only [List.length_drop]; simp at hl ⊢; omega)]
      by_cases hc : b ≤ (x :: xs).length
      · rw [min_eq_left hc, List.take_append_drop]
      · rw [min_eq_right (by omega), List.take_length,
          List.drop_eq_nil_of_le (by omega), List.append_nil]

theorem build_index_eq (embed : String → List Int) (normalizeRow : List Int → List Int)
    (records : List Record) (b : Nat) (hb : 0 < b) :
    build_index embed normalizeRow records b
      = (records.map (fun r => normalizeRow (embed r.text)), records.map toMeta) := by
  unfold build_index
  rw [← List.map_flatten, ← List.map_flatten, flatten_batchSlices b hb]

/-- C7: batch boundaries do not affect the built index: for any two
positive batch sizes, `build_index` produces the same stored vector
matrix and the same metadata list in the same order (with the embedding
modelled as a pure per-text function and row normalization as a pure
per-row function). -/
theorem build_index_batch_invariant (embed : String → List Int)
    (normalizeRow : List Int → List Int) (records : List Record) (b₁ b₂ : Nat)
    (h₁ : 0 < b₁) (h₂ : 0 < b₂) :
    build_index embed normalizeRow records b₁ = build_index embed normalizeRow records b₂ := by
  rw [build_index_eq embed normalizeRow records b₁ h₁,
    build_index_eq embed normalizeRow records b₂ h₂]

/-- Three concrete records for witnesses. -/
def exRecs : List Record :=
  [⟨"c1", "f", "t", "s", 1, "alpha", "src"⟩,
   ⟨"c2", "f", "t", "s", 2, "beta", "src"⟩,
   ⟨"c3", "f", "t", "s", 3, "gamma", "src"⟩]

/-- Closed witness for `build_index_batch_invariant` at a concrete input. -/
theorem build_index_batch_invariant_witness :
    0 < 2 ∧ 0 < 3 ∧
      build_index (fun s => [(s.length : Int)]) (fun v => v) exRecs 2
        = build_index (fun s => [(s.length : Int)]) (fun v => v) exRecs 3 :=
  ⟨by decide, by decide,
    build_index_batch_invariant (fun s => [(s.length : Int)]) (fun v => v) exRecs 2 3
      (by decide) (by decide)⟩

end Embeddings

namespace Faiss

/-- Inner product of two vectors (integer vectors stand in for the
float32 vectors; every claim proved here is ordering/filtering
behaviour, independent of the numeric type, and `Int` evaluates in the
kernel). -/
def dot (q v : List Int) : Int :=
  (List.zipWith (fun a b => a * b) q v).sum

/-- Search order: higher score first, ties by ascending insertion
position. -/
def scoreLe (a b : Nat × Int) : Bool :=
  decide (b.2 < a.2) || (decide (a.2 = b.2) && decide (a.1 ≤ b.1))

/-- Insert into a score-sorted list (before the first entry not
strictly preferred, preserving the order of equal entries). -/
def insertScored (x : Nat × Int) : List (Nat × Int) → List (Nat × Int)
  | [] => [x]
  | y :: ys => if scoreLe x y then x :: y :: ys else y :: insertScored x ys

/-- Sort by descending score, ties by ascending position. -/
def sortScored : List (Nat × Int) → List (Nat × Int)
  | [] => []
  | x :: xs => insertScored x (sortScored xs)

/-- Modelled from the spec: the `faiss.IndexFlatIP.search` call made by
`retrieve` (the faiss library itself is an external collaborator).  Per
the spec, the index performs exact (brute-force) nearest-neighbor
search over the inner product of the stored vectors, returning the
`top_k` highest-inner-product entries in descending score order with
ties broken by ascending insertion position; when fewer than `top_k`
vectors are stored, the result rows are padded with id `-1` (which the
callers filter out). -/
def search (vecs : List (List Int)) (q : List Int) (k : Nat) : List (Int × Int) :=
  let top := ((sortScored (vecs.map (dot q)).enum).take k).map
    (fun p => ((p.1 : Int), p.2))
  top ++ List.replicate (k - top.length) (-1, 0)

theorem scoreLe_trans (a b c : Nat × Int) (h1 : scoreLe a b = true) (h2 : scoreLe b c = true) :
    scoreLe a c = true := by
  simp only [scoreLe, Bool.or_eq_true, Bool.and_eq_true, decide_eq_true_eq] at h1 h2 ⊢
  rcases h1 with h1 | ⟨h1e, h1n⟩
  · rcases h2 with h2 | ⟨h2e, h2n⟩
    · exact Or.inl (lt_trans h2 h1)
    · exact Or.inl (h2e ▸ h1)
  · rcases h2 with h2 | ⟨h2e, h2n⟩
    · exact Or.inl (h1e ▸ h2)
    · exact Or.inr ⟨h1e.trans h2e, le_trans h1n h2n⟩

theorem scoreLe_total (a b : Nat × Int) : (scoreLe a b || scoreLe b a) = true := by
  simp only [scoreLe, Bool.or_eq_true, Bool.and_eq_true, decide_eq_true_eq]
  rcases lt_trichotomy a.2 b.2 with h | h | h
  · exact Or.inr (Or.inl h)
  · rcases Nat.le_total a.1 b.1 with hn | hn
    · exact Or.inl (Or.inr ⟨h, hn⟩)
    · exact Or.inr (Or.inr ⟨h.symm, hn⟩)
  · exact Or.inl (Or.inl h)

theorem insertScored_perm (x : Nat × Int) : ∀ l, (insertScored x l).Perm (x :: l) := by
  intro l
  induction l with
  | nil => exact List.Perm.refl _
  | cons y ys ih =>
    rw [insertScored]
    by_cases h : scoreLe x y = true
    · rw [if_pos h]
    · rw [if_neg h]
      exact (ih.cons y).trans (List.Perm.swap x y ys)

theorem mem_insertScored (x : Nat × Int) : ∀ l (z : Nat × Int),
    z ∈ insertScored x l ↔ z = x ∨ z ∈ l := by
  intro l z
  rw [(insertScored_perm x l).mem_iff, List.mem_cons]

theorem sortScored_perm : ∀ l, (sortScored l).Perm l := by
  intro l
  induction l with
  | nil => exact List.Perm.refl _
  | cons x xs ih =>
    rw [sortScored]
    exact (insertScored_perm x (sortScored xs)).trans (ih.cons x)

theorem pairwise_insertScored (x : Nat × Int) : ∀ l,
    List.Pairwise (fun a b => scoreLe a b = true) l →
    List.Pairwise (fun a b => scoreLe a b = true) (insertScored x l) := by
  intro l
  induction l with
  | nil => intro _; simp [insertScored]
  | cons y ys ih =>
    intro hp
    obtain ⟨hy, hys⟩ := List.pairwise_cons.1 hp
    rw [insertScored]
    by_cases h : scoreLe x y = true
    · rw [if_pos h]
      refine List.pairwise_cons.2 ⟨?_, hp⟩
      intro b hb
      rcases List.mem_cons.1 hb with rfl | hb
      · exact h
      · exact scoreLe_trans _ _ _ h (hy b hb)
    · rw [if_neg h]
      refine List.pairwise_cons.2 ⟨?_, ih hys⟩
      intro b hb
      rcases (mem_insertScored x ys b).1 hb with hbx | hb
      · rw [hbx]
        rcases (by simpa using scoreLe_total x y :
            scoreLe x y = true ∨ scoreLe y x = true) with h1 | h1
        · exact absurd h1 h
        · exact h1
      · exact hy b hb

theorem sortScored_pairwise : ∀ l,
    List.Pairwise (fun a b => scoreLe a b = true) (sortScored l) := by
  intro l
  induction l with
  | nil => simp [sortScored]
  | cons x xs ih => exact pairwise_insertScored x _ ih

end Faiss

namespace Rag

/-- One line of `meta.jsonl` as read back by
`rag_query_openai.retrieve`: an arbitrary JSON object, accessed with
`.get`, so every field is optional. -/
structure RagMeta where
  chunk_id : Option String
  title : Option String
  source_fragment : Option String
  source_file : Option String
  text : Option String
  text_preview : Option String
deriving DecidableEq

/-- One retrieval result dictionary built by `retrieve`. -/
structure Result where
  score : Int
  chunk_id : Option String
  title : Option String
  source_fragment : Option String
  source_file : Option String
  text : String
deriving DecidableEq

/-- Python's `x or y` on an optional string: `None` and `""` are falsy. -/
def pyOrStr (a : Option String) (b : String) : String :=
  match a with
  | some s => if s = "" then b else s
  | none => b

/-- The result dictionary for one hit:
`text` is `m.get("text") or m.get("text_preview") or ""`. -/
def mkResult (sc : Int) (m : RagMeta) : Result :=
  ⟨sc, m.chunk_id, m.title, m.source_fragment, m.source_file,
    pyOrStr m.text (pyOrStr m.text_preview "")⟩

/-- The result-assembly loop of `retrieve`: for each `(idx, score)` pair
returned by the search, skip it when `idx < 0 or idx >= len(metas)`,
otherwise append the result built from `metas[idx]`. -/
def retrieveFrom (metas : List RagMeta) : List (Int × Int) → List Result
  | [] => []
  | (idx, sc) :: rest =>
    if h : 0 ≤ idx ∧ idx.toNat < metas.length then
      mkResult sc (metas.get ⟨idx.toNat, h.2⟩) :: retrieveFrom metas rest
    else retrieveFrom metas rest

/-- The pair-level filter corresponding to the skip in `retrieveFrom`. -/
def keepPred (metas : List RagMeta) (p : Int × Int) : Bool :=
  decide (0 ≤ p.1 ∧ p.1.toNat < metas.length)

/-- The on-disk state seen by `retrieve`: `none` models a missing
`faiss.index` / `meta.jsonl` file. -/
structure RagState where
  faiss_index : Option (List (List Int))
  meta_file : Option (List RagMeta)

/-- The retrieval error taxonomy reachable in the model. -/
inductive RagError
  | fileNotFound
deriving DecidableEq

/-- Embedding of `retrieve` from `src/rag/rag_query_openai.py`: raise
`FileNotFoundError` when either backing file is missing, otherwise
encode the query (`encode` models `SentenceTransformer.encode` composed
with the L2 normalization — an external floating-point computation no
claim depends on), run the index search and assemble the filtered
results.  There is no validation of `query` or `top_k`. -/
def retrieve (encode : String → List Int) (st : RagState) (query : String)
    (top_k : Nat) : Except RagError (List Result) :=
  match st.faiss_index, st.meta_file with
  | some vecs, some metas =>
    .ok (retrieveFrom metas (Faiss.search vecs (encode query) top_k))
  | _, _ => .error .fileNotFound

theorem retrieveFrom_scores (metas : List RagMeta) : ∀ raw : List (Int × Int),
    (retrieveFrom metas raw).map (fun r => r.score)
      = (raw.filter (keepPred metas)).map (fun p => p.2) := by
  intro raw
  induction raw with
  | nil => rfl
  | cons p rest ih =>
    obtain ⟨idx, sc⟩ := p
    rw [retrieveFrom]
    by_cases h : 0 ≤ idx ∧ idx.toNat < metas.length
    · rw [dif_pos h, List.filter_cons_of_pos (by simpa [keepPred] using h),
        List.map_cons, List.map_cons, ih]
      rfl
    · rw [dif_neg h, List.filter_cons_of_neg (by simpa [keepPred] using h), ih]

theorem retrieveFrom_length (metas : List RagMeta) : ∀ raw : List (Int × Int),
    (retrieveFrom metas raw).length = (raw.filter (keepPred metas)).length := by
  intro raw
  have h := retrieveFrom_scores metas raw
  have h1 := congrArg List.length h
  simpa using h1

theorem search_length (vecs : List (List Int)) (q : List Int) (k : Nat) :
    (Faiss.search vecs q k).length = k := by
  rw [Faiss.search]
  simp only [List.length_append, List.length_map, List.length_take, List.length_replicate]
  have h := (Faiss.sortScored_perm (vecs.map (Faiss.dot q)).enum).length_eq
  omega

/-- The strict result order: strictly descending score, ties broken by
strictly ascending insertion position. -/
def strictOrder (a b : Int × Int) : Prop :=
  b.2 < a.2 ∨ (a.2 = b.2 ∧ a.1 < b.1)

theorem search_filtered_pairwise (vecs : List (List Int)) (q : List Int) (k : Nat)
    (metas : List RagMeta) :
    List.Pairwise strictOrder ((Faiss.search vecs q k).filter (keepPred metas)) := by
  set l := (vecs.map (Faiss.dot q)).enum with hl
  have hnodup : ((Faiss.sortScored l).map Prod.fst).Nodup := by
    have h1 : (l.map Prod.fst).Nodup := List.nodup_enum_map_fst _
    exact ((Faiss.sortScored_perm l).map Prod.fst).nodup_iff.2 h1
  have hne : List.Pairwise (fun a b : Nat × Int => a.1 ≠ b.1) (Faiss.sortScored l) :=
    List.pairwise_map.1 hnodup
  have hpair := (Faiss.sortScored_pairwise l).and hne
  have hstrict : List.Pairwise (fun a b : Nat × Int =>
      b.2 < a.2 ∨ (a.2 = b.2 ∧ a.1 < b.1)) (Faiss.sortScored l) := by
    refine hpair.imp ?_
    intro a b hab
    obtain ⟨hle, hne'⟩ := hab
    simp only [Faiss.scoreLe, Bool.or_eq_true, Bool.and_eq_true, decide_eq_true_eq] at hle
    rcases hle with h | ⟨h1, h2⟩
    · exact Or.inl h
    · exact Or.inr ⟨h1, lt_of_le_of_ne h2 hne'⟩
  have htake : List.Pairwise (fun a b : Nat × Int =>
      b.2 < a.2 ∨ (a.2 = b.2 ∧ a.1 < b.1)) ((Faiss.sortScored l).take k) :=
    List.Pairwise.sublist (List.take_sublist _ _) hstrict
  have hmapped : List.Pairwise strictOrder
      (((Faiss.sortScored l).take k).map (fun p => ((p.1 : Int), p.2))) := by
    rw [List.pairwise_map]
    refine htake.imp ?_
    intro a b hab
    rcases hab with h | ⟨h1, h2⟩
    · exact Or.inl h
    · exact Or.inr ⟨h1, Int.ofNat_lt.mpr h2⟩
  rw [Faiss.search]
  rw [List.filter_append]
  have hpad : (List.replicate
      (k - (((Faiss.sortScored l).take k).map (fun p => ((p.1 : Int), p.2))).length)
      ((-1 : Int), (0 : Int))).filter (keepPred metas) = [] := by
    apply List.filter_eq_nil_iff.2
    intro a ha
    rw [List.eq_of_mem_replicate ha]
    simp [keepPred]
  rw [hpad, List.append_nil]
  exact List.Pairwise.sublist (List.filter_sublist _) hmapped

theorem search_filtered_in_range (vecs : List (List Int)) (q : List Int) (k : Nat)
    (metas : List RagMeta) :
    ∀ p ∈ (Faiss.search vecs q k).filter (keepPred metas),
      0 ≤ p.1 ∧ p.1.toNat < metas.length := by
  intro p hp
  have h := (List.mem_filter.1 hp).2
  simpa [keepPred] using h

/-- C3: on a built index (both files present), `retrieve` returns `ok`
with at most `top_k` results; the result scores are exactly the scores
of the in-range `(position, score)` pairs of the search output, whose
order is strictly descending in score with ties broken by ascending
insertion position; every kept search position is inside
`[0, len(metas))`, and out-of-range positions (including the `-1`
padding) are filtered out rather than crashing. -/
theorem retrieve_ok_spec (encode : String → List Int) (vecs : List (List Int))
    (metas : List RagMeta) (query : String) (top_k : Nat) (hk : 0 < top_k) :
    ∃ results,
      retrieve encode ⟨some vecs, some metas⟩ query top_k = .ok results
      ∧ results.length ≤ top_k
      ∧ results.map (fun r => r.score)
          = ((Faiss.search vecs (encode query) top_k).filter (keepPred metas)).map
              (fun p => p.2)
      ∧ List.Pairwise strictOrder
          ((Faiss.search vecs (encode query) top_k).filter (keepPred metas))
      ∧ (∀ p ∈ (Faiss.search vecs (encode query) top_k).filter (keepPred metas),
          0 ≤ p.1 ∧ p.1.toNat < metas.length) := by
  refine ⟨retrieveFrom metas (Faiss.search vecs (encode query) top_k), rfl, ?_,
    retrieveFrom_scores metas _, search_filtered_pairwise vecs _ top_k metas,
    search_filtered_in_range vecs _ top_k metas⟩
  rw [retrieveFrom_length]
  calc ((Faiss.search vecs (encode query) top_k).filter (keepPred metas)).length
      ≤ (Faiss.search vecs (encode query) top_k).length := List.length_filter_le _ _
    _ = top_k := search_length vecs _ top_k

/-- Closed witness for `retrieve_ok_spec` at a concrete input. -/
theorem retrieve_ok_spec_witness :
    0 < 2 ∧ ∃ results,
      retrieve (fun _ => [1]) ⟨some [[1]], some [⟨some "c", none, none, none, none, some "p"⟩]⟩
          "q" 2 = .ok results
      ∧ results.length ≤ 2
      ∧ results.map (fun r => r.score)
          = ((Faiss.search [[1]] ((fun _ => ([1] : List Int)) "q") 2).filter
              (keepPred [⟨some "c", none, none, none, none, some "p"⟩])).map (fun p => p.2)
      ∧ List.Pairwise strictOrder
          ((Faiss.search [[1]] ((fun _ => ([1] : List Int)) "q") 2).filter
            (keepPred [⟨some "c", none, none, none, none, some "p"⟩]))
      ∧ (∀ p ∈ (Faiss.search [[1]] ((fun _ => ([1] : List Int)) "q") 2).filter
            (keepPred [⟨some "c", none, none, none, none, some "p"⟩]),
          0 ≤ p.1 ∧ p.1.toNat < [(⟨some "c", none, none, none, none, some "p"⟩ : RagMeta)].length) :=
  ⟨by decide, retrieve_ok_spec (fun _ => [1])
    [[1]] [⟨some "c", none, none, none, none, some "p"⟩] "q" 2 (by decide)⟩

/-- A concrete metadata line for counterexamples. -/
def exMeta : RagMeta := ⟨some "c", none, none, none, none, some "p"⟩

/-- C4 counterexample: with both files present, a query that is empty
after trimming is not rejected: `retrieve` performs the search and
returns `ok` with a result, where the claim demands an
InvalidArgument-class error for queries empty after trimming. -/
theorem retrieve_accepts_empty_query :
    Py.strip " " = ""
    ∧ retrieve (fun _ => [1]) ⟨some [[1]], some [exMeta]⟩ " " 1
        = .ok [⟨1, some "c", none, none, none, "p"⟩] := by
  constructor
  · rfl
  · rfl

/-- C4, corrected form: `retrieve` raises `FileNotFoundError` exactly
when the index file or the metadata file is absent (and that is the
only error it raises); with both files present it always proceeds to
the search and returns `ok`, performing no validation of `top_k` or of
the query text. -/
theorem retrieve_error_spec (encode : String → List Int) (st : RagState)
    (query : String) (top_k : Nat) :
    ((∃ e, retrieve encode st query top_k = .error e)
        ↔ st.faiss_index = none ∨ st.meta_file = none)
    ∧ (∀ e, retrieve encode st query top_k = .error e → e = .fileNotFound)
    ∧ (∀ vecs metas, st.faiss_index = some vecs → st.meta_file = some metas →
        retrieve encode st query top_k
          = .ok (retrieveFrom metas (Faiss.search vecs (encode query) top_k))) := by
  obtain ⟨fi, mf⟩ := st
  cases fi with
  | none =>
    cases mf with
    | none =>
      refine ⟨⟨fun _ => Or.inl rfl, fun _ => ⟨.fileNotFound, rfl⟩⟩, ?_, ?_⟩
      · intro e he
        cases e
        rfl
      · intro vecs metas hv _
        exact absurd hv (by simp)
    | some metas =>
      refine ⟨⟨fun _ => Or.inl rfl, fun _ => ⟨.fileNotFound, rfl⟩⟩, ?_, ?_⟩
      · intro e he
        cases e
        rfl
      · intro vecs metas' hv _
        exact absurd hv (by simp)
  | some vecs =>
    cases mf with
    | none =>
      refine ⟨⟨fun _ => Or.inr rfl, fun _ => ⟨.fileNotFound, rfl⟩⟩, ?_, ?_⟩
      · intro e he
        cases e
        rfl
      · intro vecs' metas hv hm
        exact absurd hm (by simp)
    | some metas =>
      refine ⟨⟨?_, ?_⟩, ?_, ?_⟩
      · rintro ⟨e, he⟩
        exact absurd he (by simp [retrieve])
      · rintro (h | h) <;> exact absurd h (by simp)
      · intro e he
        exact absurd he (by simp [retrieve])
      · intro vecs' metas' hv hm
        have hv' : vecs' = vecs := by simpa using hv.symm
        have hm' : metas' = metas := by simpa using hm.symm
        subst hv'
        subst hm'
        rfl

/-- Closed witness for `retrieve_error_spec` at a concrete input. -/
theorem retrieve_error_spec_witness :
    (∃ e, retrieve (fun _ => [1]) ⟨none, none⟩ "q" 1 = .error e) := by
  exact (retrieve_error_spec (fun _ => [1]) ⟨none, none⟩ "q" 1).1.2 (Or.inl rfl)

/-! ### Answer extraction (`extract_preface_and_code`)

The source locates the first fenced code block with the regex
`(?s)^(?P<preface>.*?)(?:\r?\n)?` followed by a three-backtick fence,
an optional `bash|sh|shell` tag (IGNORECASE), `\s*`, a lazy
`(?P<code>[\s\S]*?)`, `\s*` and a closing fence; both groups are
stripped.  The embedding implements the deterministic behaviour of that
regex directly on character lists: the opening fence is the first
three-backtick run after which a closing three-backtick run exists, the
tag alternation consumes `bash` else `sh` (the `shell` alternative is
dead, `sh` being tried first and a prefix of it), and because both
groups are stripped, the `(?:\r?\n)?` and the two `\s*` gaps are
absorbed into the strip. -/

/-- The backtick character. -/
def btick : Char := Char.ofNat 96

/-- Does the text start with a three-backtick fence? -/
def startsFence : List Char → Bool
  | a :: b :: c :: _ => a == btick && b == btick && c == btick
  | _ => false

/-- Does a fence occur anywhere in the text? -/
def hasFence : List Char → Bool
  | [] => false
  | c :: cs => startsFence (c :: cs) || hasFence cs

/-- The text strictly before the first fence (the lazy code group up to
the closing `\s*` fence, before stripping). -/
def takeToFence : List Char → List Char
  | [] => []
  | c :: cs => if startsFence (c :: cs) then [] else c :: takeToFence cs

/-- Case-insensitive prefix test against a lowercase pattern. -/
def startsWithCI : List Char → List Char → Bool
  | [], _ => true
  | _ :: _, [] => false
  | p :: ps, c :: cs => (c.toLower == p) && startsWithCI ps cs

/-- Length of the language tag consumed after the opening fence:
the alternation `(?:bash|sh|shell)?` tries `bash`, then `sh`, then
`shell`, then empty; `shell` can never be reached since `sh` is a
prefix of it. -/
def tagLen (l : List Char) : Nat :=
  if startsWithCI "bash".data l then 4
  else if startsWithCI "sh".data l then 2
  else 0

/-- Drop the language tag. -/
def dropTag (l : List Char) : List Char :=
  l.drop (tagLen l)

/-- Find the opening fence of the first complete fenced block: returns
the characters before it and the text after the fence and tag, or
`none` when no fence with a closing fence exists. -/
def findOpen : List Char → Option (List Char × List Char)
  | [] => none
  | c :: cs =>
    if startsFence (c :: cs) && hasFence (dropTag (cs.drop 2)) then
      some ([], dropTag (cs.drop 2))
    else
      match findOpen cs with
      | some (pre, rest) => some (c :: pre, rest)
      | none => none

/-- Is the character a line break (`\n` or `\r`)? -/
def isNL (c : Char) : Bool :=
  c == '\n' || c == '\r'

/-- Python `str.splitlines` (on the line breaks `\n`, `\r`, `\r\n`
— the ASCII breaks these inputs contain), fuel-indexed. -/
def splitLinesF : Nat → List Char → List (List Char)
  | 0, _ => []
  | _, [] => []
  | f + 1, c :: cs =>
    ((c :: cs).takeWhile (fun x => ! isNL x))
      :: (match (c :: cs).dropWhile (fun x => ! isNL x) with
        | [] => []
        | [_] => []
        | r1 :: r2 :: r =>
          if r1 == '\r' && r2 == '\n' then splitLinesF f r
          else splitLinesF f (r2 :: r))

/-- Exact prefix test. -/
def startsWithLit : List Char → List Char → Bool
  | [], _ => true
  | _ :: _, [] => false
  | p :: ps, c :: cs => (c == p) && startsWithLit ps cs

/-- The command-start heuristic of the fallback path:
`curl`, `http`, `wget`, `sudo`, `ssh`. -/
def isCmdLine (l : List Char) : Bool :=
  startsWithLit "curl".data l || startsWithLit "http".data l
    || startsWithLit "wget".data l || startsWithLit "sudo".data l
    || startsWithLit "ssh".data l

/-- Embedding of `extract_preface_and_code` from
`src/rag/rag_query_openai.py` on character lists: primary path takes
the first complete fenced block (stripped preface before it, `None`
when empty; stripped fence content as the code); with no fenced block,
the first three non-blank stripped lines are scanned for a
command-starting token (that line is returned with no preface); last
resort returns the whole stripped text as preface. -/
def extract_preface_and_code (t : List Char) : Option (List Char) × Option (List Char) :=
  if t.isEmpty then (none, none)
  else
    match findOpen t with
    | some (pre, rest) =>
      let preface := Py.trimChars pre
      (if preface.isEmpty then none else some preface,
        some (Py.trimChars (takeToFence rest)))
    | none =>
      let lines := ((splitLinesF (t.length + 1) t).map Py.trimChars).filter
        (fun l => ! l.isEmpty)
      if lines.isEmpty then (none, none)
      else
        match (lines.take 3).find? isCmdLine with
        | some ln => (none, some ln)
        | none => (some (Py.trimChars t), none)

/-! ### Redaction (`redact_possible_secrets_from_code`)

The source applies two global `re.sub` passes:
`(-u\s+[^:\s]+):\S+ -> \1:***REDACTED***` and, case-insensitively,
`(Authorization:\s*Bearer\s+)(\S+) -> \1***REDACTED***`.  Both patterns
are backtracking-free (each quantified class is decided by maximal
munch), so each pass is embedded as a left-to-right scanner that either
matches at the current position (emitting the replacement and resuming
after the match) or copies one character. -/

/-- The redaction marker `***REDACTED***`. -/
def marker : List Char := "***REDACTED***".data

/-- Not `\s` (ASCII). -/
def notWs (c : Char) : Bool := ! Py.isWs c

/-- The character class `[^:\s]` (ASCII `\s`). -/
def notWsNotColon (c : Char) : Bool := ! Py.isWs c && c != ':'

/-- Match `(-u\s+[^:\s]+):\S+` at the head: returns
(group 1 `-u\s+[^:\s]+`, the matched `\S+` secret, the rest). -/
def matchP1 : List Char → Option (List Char × List Char × List Char)
  | '-' :: 'u' :: rest =>
    let w := rest.takeWhile Py.isWs
    let r1 := rest.dropWhile Py.isWs
    if w.isEmpty then none
    else
      let nm := r1.takeWhile notWsNotColon
      let r2 := r1.dropWhile notWsNotColon
      if nm.isEmpty then none
      else
        match r2 with
        | ':' :: r3 =>
          let sec := r3.takeWhile notWs
          let r4 := r3.dropWhile notWs
          if sec.isEmpty then none
          else some ('-' :: 'u' :: (w ++ nm), sec, r4)
        | _ => none
  | _ => none

/-- Pass 1 scanner (`re.sub` of the `-u user:secret` pattern). -/
def subst1F : Nat → List Char → List Char
  | 0, l => l
  | _, [] => []
  | f + 1, c :: cs =>
    match matchP1 (c :: cs) with
    | some (g1, _, rest) => g1 ++ ':' :: marker ++ subst1F f rest
    | none => c :: subst1F f cs

/-- Pass 1: redact `-u user:SECRET` patterns. -/
def subst1 (l : List Char) : List Char := subst1F l.length l

/-- Case-insensitive literal match against a lowercase pattern,
returning the rest of the input. -/
def matchCI : List Char → List Char → Option (List Char)
  | [], l => some l
  | _ :: _, [] => none
  | p :: ps, c :: cs => if c.toLower == p then matchCI ps cs else none

/-- Match `(Authorization:\s*Bearer\s+)(\S+)` (IGNORECASE) at the head:
returns (group 1 in its original spelling, the matched token, rest). -/
def matchP2 (l : List Char) : Option (List Char × List Char × List Char) :=
  match matchCI "authorization:".data l with
  | none => none
  | some r1 =>
    let r2 := r1.dropWhile Py.isWs
    match matchCI "bearer".data r2 with
    | none => none
    | some r3 =>
      let w2 := r3.takeWhile Py.isWs
      let r4 := r3.dropWhile Py.isWs
      if w2.isEmpty then none
      else
        let tok := r4.takeWhile notWs
        let r5 := r4.dropWhile notWs
        if tok.isEmpty then none
        else some (l.take (l.length - r4.length), tok, r5)

/-- Pass 2 scanner (`re.sub` of the Authorization-Bearer pattern). -/
def subst2F : Nat → List Char → List Char
  | 0, l => l
  | _, [] => []
  | f + 1, c :: cs =>
    match matchP2 (c :: cs) with
    | some (g1, _, rest) => g1 ++ marker ++ subst2F f rest
    | none => c :: subst2F f cs

/-- Pass 2: redact `Authorization: Bearer TOKEN` patterns. -/
def subst2 (l : List Char) : List Char := subst2F l.length l

/-- Embedding of `redact_possible_secrets_from_code` from
`src/rag/rag_query_openai.py`: empty input is returned unchanged,
otherwise pass 1 then pass 2. -/
def redact_possible_secrets_from_code (l : List Char) : List Char :=
  if l.isEmpty then l else subst2 (subst1 l)

theorem startsFence_cons_ne (c : Char) (xs : List Char) (hc : c ≠ btick) :
    startsFence (c :: xs) = false := by
  cases xs with
  | nil => rfl
  | cons b ys =>
    cases ys with
    | nil => rfl
    | cons d zs =>
      simp only [startsFence, Bool.and_eq_false_iff]
      exact Or.inl (Or.inl (by simpa using hc))

theorem findOpen_append (u v : List Char) (hu : ∀ c ∈ u, c ≠ btick) :
    findOpen (u ++ v) = (findOpen v).map (fun pr => (u ++ pr.1, pr.2)) := by
  induction u with
  | nil =>
    simp only [List.nil_append]
    cases findOpen v with
    | none => rfl
    | some pr => rfl
  | cons c u' ih =>
    have hc := hu c (List.mem_cons_self _ _)
    rw [List.cons_append, findOpen]
    rw [if_neg (by rw [startsFence_cons_ne _ _ hc, Bool.false_and]; simp)]
    rw [ih (fun x hx => hu x (List.mem_cons_of_mem _ hx))]
    cases findOpen v with
    | none => rfl
    | some pr => rfl

theorem hasFence_append_fence (y : List Char) : ∀ x : List Char,
    hasFence (x ++ btick :: btick :: btick :: y) = true := by
  intro x
  induction x with
  | nil => simp [hasFence, startsFence]
  | cons c x' ih =>
    rw [List.cons_append, hasFence, ih, Bool.or_true]

theorem takeToFence_append (y : List Char) : ∀ x : List Char, (∀ c ∈ x, c ≠ btick) →
    takeToFence (x ++ btick :: btick :: btick :: y) = x := by
  intro x
  induction x with
  | nil => simp [takeToFence, startsFence]
  | cons c x' ih =>
    intro hx
    rw [List.cons_append, takeToFence,
      if_neg (by rw [startsFence_cons_ne _ _ (hx c (List.mem_cons_self _ _))]; simp),
      ih (fun z hz => hx z (List.mem_cons_of_mem _ hz))]

theorem trimChars_newline (l : List Char) : Py.trimChars ('\n' :: l) = Py.trimChars l := rfl

/-- The general decomposition behind C9: the text before the first
fenced block, trimmed, becomes the preface (`none` when empty after
trimming), and the fenced content, trimmed, becomes the command. -/
theorem extract_fenced_decomp (pre code rest : List Char)
    (hpre : ∀ c ∈ pre, c ≠ btick) (hcode : ∀ c ∈ code, c ≠ btick) :
    extract_preface_and_code
        (pre ++ btick :: btick :: btick :: 'b' :: 'a' :: 's' :: 'h' :: '\n'
          :: (code ++ btick :: btick :: btick :: rest))
      = (if (Py.trimChars pre).isEmpty then none else some (Py.trimChars pre),
          some (Py.trimChars code)) := by
  have hne : (pre ++ btick :: btick :: btick :: 'b' :: 'a' :: 's' :: 'h' :: '\n'
      :: (code ++ btick :: btick :: btick :: rest)).isEmpty = false := by
    cases pre <;> rfl
  rw [extract_preface_and_code, if_neg (by simp [hne])]
  rw [findOpen_append pre _ hpre]
  have hopen : findOpen (btick :: btick :: btick :: 'b' :: 'a' :: 's' :: 'h' :: '\n'
      :: (code ++ btick :: btick :: btick :: rest))
      = some ([], '\n' :: (code ++ btick :: btick :: btick :: rest)) := by
    rw [findOpen]
    rw [if_pos]
    · rfl
    · have hdt : dropTag ('b' :: 'a' :: 's' :: 'h' :: '\n'
          :: (code ++ btick :: btick :: btick :: rest))
          = '\n' :: (code ++ btick :: btick :: btick :: rest) := rfl
      rw [show ((btick :: btick :: ('b' :: 'a' :: 's' :: 'h' :: '\n'
          :: (code ++ btick :: btick :: btick :: rest))).drop 2)
          = 'b' :: 'a' :: 's' :: 'h' :: '\n' :: (code ++ btick :: btick :: btick :: rest)
          from rfl, hdt]
      rw [show ('\n' :: (code ++ btick :: btick :: btick :: rest))
          = (('\n' :: code) ++ btick :: btick :: btick :: rest) from rfl]
      rw [hasFence_append_fence rest ('\n' :: code)]
      rfl
  rw [hopen]
  simp only [Option.map_some', List.append_nil]
  have htf : takeToFence ('\n' :: (code ++ btick :: btick :: btick :: rest))
      = '\n' :: code := by
    rw [show ('\n' :: (code ++ btick :: btick :: btick :: rest))
        = (('\n' :: code) ++ btick :: btick :: btick :: rest) from rfl]
    refine takeToFence_append rest ('\n' :: code) ?_
    intro c hc
    rcases List.mem_cons.1 hc with rfl | hc
    · decide
    · exact hcode c hc
  rw [htf, trimChars_newline]

/-- Companion decomposition for an untagged fence `` ```\n ``. -/
theorem extract_plain_decomp (pre code rest : List Char)
    (hpre : ∀ c ∈ pre, c ≠ btick) (hcode : ∀ c ∈ code, c ≠ btick) :
    extract_preface_and_code
        (pre ++ btick :: btick :: btick :: '\n'
          :: (code ++ btick :: btick :: btick :: rest))
      = (if (Py.trimChars pre).isEmpty then none else some (Py.trimChars pre),
          some (Py.trimChars code)) := by
  have hne : (pre ++ btick :: btick :: btick :: '\n'
      :: (code ++ btick :: btick :: btick :: rest)).isEmpty = false := by
    cases pre <;> rfl
  rw [extract_preface_and_code, if_neg (by simp [hne])]
  rw [findOpen_append pre _ hpre]
  have hopen : findOpen (btick :: btick :: btick :: '\n'
      :: (code ++ btick :: btick :: btick :: rest))
      = some ([], '\n' :: (code ++ btick :: btick :: btick :: rest)) := by
    rw [findOpen]
    rw [if_pos]
    · rfl
    · rw [show ((btick :: btick :: ('\n'
          :: (code ++ btick :: btick :: btick :: rest))).drop 2)
          = '\n' :: (code ++ btick :: btick :: btick :: rest) from rfl]
      rw [show dropTag ('\n' :: (code ++ btick :: btick :: btick :: rest))
          = '\n' :: (code ++ btick :: btick :: btick :: rest) from rfl]
      rw [show ('\n' :: (code ++ btick :: btick :: btick :: rest))
          = (('\n' :: code) ++ btick :: btick :: btick :: rest) from rfl]
      rw [hasFence_append_fence rest ('\n' :: code)]
      rfl
  rw [hopen]
  simp only [Option.map_some', List.append_nil]
  have htf : takeToFence ('\n' :: (code ++ btick :: btick :: btick :: rest))
      = '\n' :: code := by
    rw [show ('\n' :: (code ++ btick :: btick :: btick :: rest))
        = (('\n' :: code) ++ btick :: btick :: btick :: rest) from rfl]
    refine takeToFence_append rest ('\n' :: code) ?_
    intro c hc
    rcases List.mem_cons.1 hc with rfl | hc
    · decide
    · exact hcode c hc
  rw [htf, trimChars_newline]

/-- C9 counterexample: on a `shell`-tagged fenced block the regex
alternation `(?:bash|sh|shell)?` consumes `sh` (tried before `shell`),
so the extracted command is `"ell\nls -la"` — not the trimmed fenced
content `"ls -la"` that the claim promises for every text containing a
fenced code block. -/
theorem extract_shell_tag_quirk :
    extract_preface_and_code "Intro\n```shell\nls -la\n```".data
      = (some "Intro".data, some "ell\nls -la".data)
    ∧ (extract_preface_and_code "Intro\n```shell\nls -la\n```".data).2
        ≠ some "ls -la".data := by
  refine ⟨by decide, by decide⟩

/-- C9, corrected form: for a generated text decomposed as prose, a
fenced block tagged `bash` (or untagged) and a tail — prose and fence
content backtick-free — `extract_preface_and_code` returns the trimmed
text strictly before the fence as the preface (`None` when empty after
trimming) and the trimmed fenced content as the command (for a
`shell`-tagged fence the alternation instead consumes only `sh`,
leaving `ell` in the command, see the counterexample); and on the
concrete input
`"Here is the command.\n\n```bash\ncurl -u admin:SECRET123 https://x\n```"`
it extracts preface `"Here is the command."` and command
`"curl -u admin:SECRET123 https://x"`, which redacts to
`"curl -u admin:***REDACTED*** https://x"`. -/
theorem extract_preface_and_code_spec (pre code rest : List Char)
    (hpre : ∀ c ∈ pre, c ≠ btick) (hcode : ∀ c ∈ code, c ≠ btick) :
    (extract_preface_and_code
        (pre ++ btick :: btick :: btick :: 'b' :: 'a' :: 's' :: 'h' :: '\n'
          :: (code ++ btick :: btick :: btick :: rest))
      = (if (Py.trimChars pre).isEmpty then none else some (Py.trimChars pre),
          some (Py.trimChars code)))
    ∧ (extract_preface_and_code
        (pre ++ btick :: btick :: btick :: '\n'
          :: (code ++ btick :: btick :: btick :: rest))
      = (if (Py.trimChars pre).isEmpty then none else some (Py.trimChars pre),
          some (Py.trimChars code)))
    ∧ extract_preface_and_code
        "Here is the command.\n\n```bash\ncurl -u admin:SECRET123 https://x\n```".data
      = (some "Here is the command.".data, some "curl -u admin:SECRET123 https://x".data)
    ∧ redact_possible_secrets_from_code "curl -u admin:SECRET123 https://x".data
      = "curl -u admin:***REDACTED*** https://x".data := by
  refine ⟨extract_fenced_decomp pre code rest hpre hcode,
    extract_plain_decomp pre code rest hpre hcode, by decide, by decide⟩

/-- Closed witness for `extract_preface_and_code_spec` at a concrete
input. -/
theorem extract_preface_and_code_spec_witness :
    extract_preface_and_code
        ("Hi.".data ++ btick :: btick :: btick :: 'b' :: 'a' :: 's' :: 'h' :: '\n'
          :: ("ls".data ++ btick :: btick :: btick :: []))
      = (if (Py.trimChars "Hi.".data).isEmpty then none
          else some (Py.trimChars "Hi.".data),
          some (Py.trimChars "ls".data)) :=
  (extract_preface_and_code_spec "Hi.".data "ls".data [] (by decide) (by decide)).1

end Rag

namespace Embeddings

/-- C8 counterexample: `build_faiss_index_local.main` on an empty
record list refuses to build: it returns before calling `build_index`
or `save_index`, so no index or metadata artifact is produced — where
the claim demands a persisted (empty) index and metadata store. -/
theorem build_main_refuses_empty :
    buildMainModel (fun _ => [1]) (fun v => v) [] = none := rfl

theorem retrieveFrom_replicate_pad (metas : List Rag.RagMeta) :
    ∀ k, Rag.retrieveFrom metas (List.replicate k ((-1 : Int), (0 : Int))) = [] := by
  intro k
  induction k with
  | zero => rfl
  | succ k ih =>
    rw [List.replicate_succ, Rag.retrieveFrom]
    rw [dif_neg (by omega), ih]

/-- C8, corrected form: `build_index` itself succeeds on zero chunks,
producing an empty vector matrix and empty metadata, and searching an
empty index yields zero retrieval results for every query and `top_k`;
but the CLI `main` refuses to build on zero chunks, exiting with
`"No chunks found. Exiting."` before persisting any artifact. -/
theorem build_index_empty_spec (embed : String → List Int)
    (normalizeRow : List Int → List Int) (b : Nat) (hb : 0 < b) :
    build_index embed normalizeRow [] b = ([], [])
    ∧ (∀ (metas : List Rag.RagMeta) (q : List Int) (k : Nat),
        Rag.retrieveFrom metas (Faiss.search [] q k) = [])
    ∧ buildMainModel embed normalizeRow [] = none := by
  refine ⟨?_, ?_, rfl⟩
  · rw [build_index_eq embed normalizeRow [] b hb]
    rfl
  · intro metas q k
    have hs : Faiss.search [] q k = List.replicate k ((-1 : Int), (0 : Int)) := by
      simp [Faiss.search, Faiss.sortScored]
    rw [hs]
    exact retrieveFrom_replicate_pad metas k

/-- Closed witness for `build_index_empty_spec` at a concrete input. -/
theorem build_index_empty_spec_witness :
    0 < 64 ∧ build_index (fun _ => [1]) (fun v => v) [] 64 = ([], []) :=
  ⟨by decide, (build_index_empty_spec (fun _ => [1]) (fun v => v) 64 (by decide)).1⟩

end Embeddings

namespace Rag

/-! ### Redaction idempotence: span and matcher lemmas -/

/-- The rest after a replaced span starts with whitespace (or is empty):
the replaced `\S+` run was maximal. -/
def wsHead : List Char → Prop
  | [] => True
  | c :: _ => Py.isWs c = true

theorem takeWhile_append_all (p : Char → Bool) (A B : List Char)
    (hA : ∀ c ∈ A, p c = true) :
    (A ++ B).takeWhile p = A ++ B.takeWhile p := by
  induction A with
  | nil => rfl
  | cons a A' ih =>
    rw [List.cons_append, List.takeWhile_cons,
      if_pos (hA a (List.mem_cons_self _ _)), ih (fun c hc => hA c (List.mem_cons_of_mem _ hc)),
      List.cons_append]

theorem dropWhile_append_all (p : Char → Bool) (A B : List Char)
    (hA : ∀ c ∈ A, p c = true) :
    (A ++ B).dropWhile p = B.dropWhile p := by
  induction A with
  | nil => rfl
  | cons a A' ih =>
    rw [List.cons_append, List.dropWhile_cons,
      if_pos (hA a (List.mem_cons_self _ _)), ih (fun c hc => hA c (List.mem_cons_of_mem _ hc))]

theorem takeWhile_append_stop (p : Char → Bool) (A B : List Char)
    (hA : ¬ ∀ c ∈ A, p c = true) :
    (A ++ B).takeWhile p = A.takeWhile p := by
  induction A with
  | nil => exact absurd (by intro c hc; simp at hc) hA
  | cons a A' ih =>
    by_cases ha : p a = true
    · have hA' : ¬ ∀ c ∈ A', p c = true := by
        intro hAll
        apply hA
        intro c hc
        rcases List.mem_cons.1 hc with rfl | hc2
        · exact ha
        · exact hAll c hc2
      rw [List.cons_append, List.takeWhile_cons, if_pos ha, List.takeWhile_cons, if_pos ha,
        ih hA']
    · rw [List.cons_append, List.takeWhile_cons, if_neg ha, List.takeWhile_cons, if_neg ha]

theorem dropWhile_append_stop (p : Char → Bool) (A B : List Char)
    (hA : ¬ ∀ c ∈ A, p c = true) :
    (A ++ B).dropWhile p = A.dropWhile p ++ B := by
  induction A with
  | nil => exact absurd (by intro c hc; simp at hc) hA
  | cons a A' ih =>
    by_cases ha : p a = true
    · have hA' : ¬ ∀ c ∈ A', p c = true := by
        intro hAll
        apply hA
        intro c hc
        rcases List.mem_cons.1 hc with rfl | hc2
        · exact ha
        · exact hAll c hc2
      rw [List.cons_append, List.dropWhile_cons, if_pos ha, List.dropWhile_cons, if_pos ha,
        ih hA']
    · rw [List.cons_append, List.dropWhile_cons, if_neg ha, List.dropWhile_cons, if_neg ha,
        List.cons_append]

theorem dropWhile_ne_nil_of_stop (p : Char → Bool) (A : List Char)
    (hA : ¬ ∀ c ∈ A, p c = true) :
    A.dropWhile p ≠ [] := by
  intro hnil
  apply hA
  intro c hc
  by_cases h : p c = true
  · exact h
  · exfalso
    have : c ∈ A.takeWhile p ++ A.dropWhile p := by
      rw [List.takeWhile_append_dropWhile]; exact hc
    rw [hnil, List.append_nil] at this
    exact absurd (List.mem_takeWhile_imp this) h

theorem dropWhile_head_not (p : Char → Bool) : ∀ (l : List Char) (c : Char) (cs : List Char),
    l.dropWhile p = c :: cs → p c = false := by
  intro l
  induction l with
  | nil => intro c cs h; simp at h
  | cons a l' ih =>
    intro c cs h
    rw [List.dropWhile_cons] at h
    by_cases ha : p a = true
    · rw [if_pos ha] at h
      exact ih c cs h
    · rw [if_neg ha] at h
      rw [List.cons.injEq] at h
      rw [h.1] at ha
      simpa using ha

theorem wsHead_dropWhile_notWs (l : List Char) : wsHead (l.dropWhile notWs) := by
  rcases hd : l.dropWhile notWs with _ | ⟨c, cs⟩
  · trivial
  · have := dropWhile_head_not notWs l c cs hd
    simp only [wsHead]
    simpa [notWs] using this

theorem matchP1_nil : matchP1 [] = none := rfl

theorem matchP1_single (c : Char) : matchP1 [c] = none := by
  rw [matchP1.eq_def]
  split
  · next heq => simp at heq
  · rfl

theorem matchP1_head_ne (c : Char) (cs : List Char) (h : c ≠ '-') :
    matchP1 (c :: cs) = none := by
  rw [matchP1.eq_def]
  split
  · next heq =>
    rw [List.cons.injEq] at heq
    exact absurd heq.1 h
  · rfl

theorem matchP1_second_ne (c d : Char) (cs : List Char) (h : d ≠ 'u') :
    matchP1 (c :: d :: cs) = none := by
  rw [matchP1.eq_def]
  split
  · next heq =>
    rw [List.cons.injEq, List.cons.injEq] at heq
    exact absurd heq.2.1 h
  · rfl

theorem matchP1_du (rest : List Char) :
    matchP1 ('-' :: 'u' :: rest)
      = (if (rest.takeWhile Py.isWs).isEmpty then none
        else
          if ((rest.dropWhile Py.isWs).takeWhile notWsNotColon).isEmpty then none
          else
            match (rest.dropWhile Py.isWs).dropWhile notWsNotColon with
            | ':' :: r3 =>
              if (r3.takeWhile notWs).isEmpty then none
              else some ('-' :: 'u' :: (rest.takeWhile Py.isWs
                  ++ (rest.dropWhile Py.isWs).takeWhile notWsNotColon),
                r3.takeWhile notWs, r3.dropWhile notWs)
            | _ => none) := rfl

theorem marker_ne_nil : marker ≠ [] := by decide

theorem marker_head : marker = '*' :: "**REDACTED***".data := by decide

theorem marker_notWs : ∀ c ∈ marker, notWs c = true := by decide

theorem marker_nwnc : ∀ c ∈ marker, notWsNotColon c = true := by decide

theorem marker_no_dash : ∀ c ∈ marker, c ≠ '-' := by decide

theorem isWs_ne_dash (c : Char) (h : Py.isWs c = true) : c ≠ '-' := by
  intro hc
  rw [hc] at h
  simp [Py.isWs] at h

theorem isWs_ne_colon (c : Char) (h : Py.isWs c = true) : c ≠ ':' := by
  intro hc
  rw [hc] at h
  simp [Py.isWs] at h

theorem subst1F_nil (f : Nat) : subst1F f [] = [] := by
  cases f <;> rfl

theorem subst1F_copy (f : Nat) (c : Char) (cs : List Char) (h : matchP1 (c :: cs) = none) :
    subst1F (f + 1) (c :: cs) = c :: subst1F f cs := by
  simp only [subst1F, h]

theorem subst1F_match (f : Nat) (c : Char) (cs g1 sec rest : List Char)
    (h : matchP1 (c :: cs) = some (g1, sec, rest)) :
    subst1F (f + 1) (c :: cs) = g1 ++ ':' :: marker ++ subst1F f rest := by
  simp only [subst1F, h]

theorem subst2F_nil (f : Nat) : subst2F f [] = [] := by
  cases f <;> rfl

theorem subst2F_copy (f : Nat) (c : Char) (cs : List Char) (h : matchP2 (c :: cs) = none) :
    subst2F (f + 1) (c :: cs) = c :: subst2F f cs := by
  simp only [subst2F, h]

theorem subst2F_match (f : Nat) (c : Char) (cs g1 tok rest : List Char)
    (h : matchP2 (c :: cs) = some (g1, tok, rest)) :
    subst2F (f + 1) (c :: cs) = g1 ++ marker ++ subst2F f rest := by
  simp only [subst2F, h]

theorem toLower_toNat (c : Char) :
    c.toLower.toNat = if 65 ≤ c.toNat ∧ c.toNat ≤ 90 then c.toNat + 32 else c.toNat := by
  unfold Char.toLower
  simp only [ge_iff_le]
  by_cases h : 65 ≤ c.toNat ∧ c.toNat ≤ 90
  · rw [if_pos h, if_pos h]
    have hv : Nat.isValidChar (c.toNat + 32) := by left; omega
    rw [Char.ofNat, dif_pos hv]
    rfl
  · rw [if_neg h, if_neg h]

theorem toLower_eq_colon (c : Char) (h : c.toLower = ':') : c = ':' := by
  have h1 := toLower_toNat c
  rw [h] at h1
  have h2 : (':' : Char).toNat = 58 := by decide
  rw [h2] at h1
  by_cases hc : 65 ≤ c.toNat ∧ c.toNat ≤ 90
  · rw [if_pos hc] at h1; omega
  · rw [if_neg hc] at h1
    have h3 : c.toNat = 58 := h1.symm
    exact Char.ext (UInt32.ext (by simpa [Char.toNat] using h3))

theorem ne_colon_toLower (c : Char) (h : c ≠ ':') : (c.toLower == ':') = false := by
  rw [beq_eq_false_iff_ne]
  intro hl
  exact h (toLower_eq_colon c hl)

theorem patA_eq : "authorization:".data
    = ['a','u','t','h','o','r','i','z','a','t','i','o','n',':'] := rfl

theorem patB_eq : "bearer".data = ['b','e','a','r','e','r'] := rfl

theorem CI_head_fail (p c : Char) (ps l : List Char) (h : (c.toLower == p) = false) :
    matchCI (p :: ps) (c :: l) = none := by
  simp [matchCI, h]

theorem CI_head_ok (p c : Char) (ps l : List Char) (h : (c.toLower == p) = true) :
    matchCI (p :: ps) (c :: l) = matchCI ps l := by
  simp [matchCI, h]

theorem WL_a (c : Char) (l : List Char) (h : (c.toLower == 'a') = false) :
    matchP2 (c :: l) = none := by
  rw [matchP2, patA_eq, CI_head_fail _ _ _ _ h]

theorem isWs_toLower_ne_a (c : Char) (h : Py.isWs c = true) : (c.toLower == 'a') = false := by
  simp only [Py.isWs, Bool.or_eq_true, beq_iff_eq] at h
  rcases h with ((((h | h) | h) | h) | h) | h <;> rw [h] <;> decide

theorem isWs_toLower_self (c : Char) (h : Py.isWs c = true) : c.toLower = c := by
  simp only [Py.isWs, Bool.or_eq_true, beq_iff_eq] at h
  rcases h with ((((h | h) | h) | h) | h) | h <;> rw [h] <;> decide

theorem isWs_toLower_ne (c p : Char) (h : Py.isWs c = true) (hp : Py.isWs p = false) :
    (c.toLower == p) = false := by
  rw [isWs_toLower_self c h, beq_eq_false_iff_ne]
  intro he
  rw [he, hp] at h
  simp at h

theorem matchP1_some_decomp (l g1 sec rest : List Char)
    (h : matchP1 l = some (g1, sec, rest)) :
    ∃ w nm, g1 = '-' :: 'u' :: (w ++ nm) ∧
      l = g1 ++ ':' :: sec ++ rest ∧
      w ≠ [] ∧ (∀ c ∈ w, Py.isWs c = true) ∧
      nm ≠ [] ∧ (∀ c ∈ nm, notWsNotColon c = true) ∧
      sec ≠ [] ∧ (∀ c ∈ sec, notWs c = true) ∧ wsHead rest := by
  match l with
  | [] => exact absurd h (by rw [matchP1_nil]; simp)
  | [c] => exact absurd h (by rw [matchP1_single]; simp)
  | c :: d :: t =>
    by_cases hc : c = '-'
    · by_cases hd : d = 'u'
      · subst hc; subst hd
        rw [matchP1_du] at h
        by_cases hw : (t.takeWhile Py.isWs).isEmpty
        · rw [if_pos hw] at h; simp at h
        · rw [if_neg hw] at h
          by_cases hnm : ((t.dropWhile Py.isWs).takeWhile notWsNotColon).isEmpty
          · rw [if_pos hnm] at h; simp at h
          · rw [if_neg hnm] at h
            split at h
            · next r3 heq =>
              by_cases hsec : (r3.takeWhile notWs).isEmpty
              · rw [if_pos hsec] at h; simp at h
              · rw [if_neg hsec] at h
                simp only [Option.some.injEq, Prod.mk.injEq] at h
                obtain ⟨hg1, hsec2, hrest⟩ := h
                refine ⟨t.takeWhile Py.isWs, (t.dropWhile Py.isWs).takeWhile notWsNotColon,
                  hg1.symm, ?_, ?_, ?_, ?_, ?_, ?_, ?_, ?_⟩
                · rw [← hg1, ← hsec2, ← hrest]
                  simp only [List.cons_append, List.append_assoc]
                  rw [List.takeWhile_append_dropWhile, ← heq, List.takeWhile_append_dropWhile,
                    List.takeWhile_append_dropWhile]
                · intro hnil; rw [hnil] at hw; exact hw rfl
                · exact fun c hc => List.mem_takeWhile_imp hc
                · intro hnil; rw [hnil] at hnm; exact hnm rfl
                · exact fun c hc => List.mem_takeWhile_imp hc
                · rw [← hsec2]
                  intro hnil; rw [hnil] at hsec; exact hsec rfl
                · rw [← hsec2]
                  exact fun c hc => List.mem_takeWhile_imp hc
                · rw [← hrest]
                  exact wsHead_dropWhile_notWs r3
            · simp at h
      · exact absurd h (by rw [matchP1_second_ne c d t hd]; simp)
    · exact absurd h (by rw [matchP1_head_ne c (d::t) hc]; simp)

theorem matchP1_some_len (l g1 sec rest : List Char)
    (h : matchP1 l = some (g1, sec, rest)) : rest.length + 4 ≤ l.length := by
  obtain ⟨w, nm, hg1, hl, hw, _, hnm, _, hsec, _, _⟩ := matchP1_some_decomp l g1 sec rest h
  have hwp : 0 < w.length := List.length_pos.2 hw
  have hnmp : 0 < nm.length := List.length_pos.2 hnm
  have hsecp : 0 < sec.length := List.length_pos.2 hsec
  rw [hl, hg1]
  simp only [List.length_append, List.length_cons]
  omega

theorem matchCI_some_len (pat : List Char) : ∀ (l r : List Char),
    matchCI pat l = some r → r.length + pat.length = l.length := by
  induction pat with
  | nil =>
    intro l r h
    simp only [matchCI, Option.some.injEq] at h
    rw [h]
    simp
  | cons p ps ih =>
    intro l r h
    cases l with
    | nil => simp [matchCI] at h
    | cons c cs =>
      by_cases hl : (c.toLower == p) = true
      · rw [CI_head_ok _ _ _ _ hl] at h
        have := ih cs r h
        simp only [List.length_cons]
        omega
      · rw [CI_head_fail _ _ _ _ (by simpa using hl)] at h
        simp at h

theorem matchP2_some_len (l g1 tok r5 : List Char)
    (h : matchP2 l = some (g1, tok, r5)) : r5.length + 14 ≤ l.length := by
  rw [matchP2] at h
  rcases h1 : matchCI "authorization:".data l with _ | r1
  · rw [h1] at h; simp at h
  · rw [h1] at h
    simp only [] at h
    rcases h2 : matchCI "bearer".data (r1.dropWhile Py.isWs) with _ | r3
    · rw [h2] at h; simp at h
    · rw [h2] at h
      simp only [] at h
      by_cases hw2 : (r3.takeWhile Py.isWs).isEmpty
      · rw [if_pos hw2] at h; simp at h
      · rw [if_neg hw2] at h
        by_cases htok : ((r3.dropWhile Py.isWs).takeWhile notWs).isEmpty
        · rw [if_pos htok] at h; simp at h
        · rw [if_neg htok] at h
          simp only [Option.some.injEq, Prod.mk.injEq] at h
          have hr5 : r5 = (r3.dropWhile Py.isWs).dropWhile notWs := h.2.2.symm
          have e1 := matchCI_some_len _ _ _ h1
          have e2 := matchCI_some_len _ _ _ h2
          have d1 : (r1.dropWhile Py.isWs).length ≤ r1.length :=
            (List.dropWhile_suffix _).length_le
          have d2 : (r3.dropWhile Py.isWs).length ≤ r3.length :=
            (List.dropWhile_suffix _).length_le
          have d3 : ((r3.dropWhile Py.isWs).dropWhile notWs).length
              ≤ (r3.dropWhile Py.isWs).length := (List.dropWhile_suffix _).length_le
          rw [patA_eq] at e1
          rw [patB_eq] at e2
          simp only [List.length_cons, List.length_nil] at e1 e2
          rw [hr5]
          omega

theorem subst1F_fuel : ∀ (n f₁ f₂ : Nat) (l : List Char), l.length ≤ n →
    l.length ≤ f₁ → l.length ≤ f₂ → subst1F f₁ l = subst1F f₂ l := by
  intro n
  induction n with
  | zero =>
    intro f₁ f₂ l hn _ _
    have : l = [] := List.length_eq_zero.1 (Nat.le_zero.1 hn)
    rw [this, subst1F_nil, subst1F_nil]
  | succ n ih =>
    intro f₁ f₂ l hn h1 h2
    cases l with
    | nil => rw [subst1F_nil, subst1F_nil]
    | cons c cs =>
      simp only [List.length_cons] at hn h1 h2
      cases f₁ with
      | zero => omega
      | succ f₁ =>
        cases f₂ with
        | zero => omega
        | succ f₂ =>
          cases hm : matchP1 (c :: cs) with
          | none =>
            rw [subst1F_copy _ _ _ hm, subst1F_copy _ _ _ hm,
              ih f₁ f₂ cs (by omega) (by omega) (by omega)]
          | some v =>
            obtain ⟨g1, sec, rest⟩ := v
            have hlen := matchP1_some_len _ _ _ _ hm
            simp only [List.length_cons] at hlen
            rw [subst1F_match _ _ _ _ _ _ hm, subst1F_match _ _ _ _ _ _ hm,
              ih f₁ f₂ rest (by omega) (by omega) (by omega)]

theorem subst1F_eq_subst1 (f : Nat) (l : List Char) (h : l.length ≤ f) :
    subst1F f l = subst1 l :=
  subst1F_fuel (max f l.length) f l.length l (le_max_right _ _) h (le_refl _)

theorem subst2F_fuel : ∀ (n f₁ f₂ : Nat) (l : List Char), l.length ≤ n →
    l.length ≤ f₁ → l.length ≤ f₂ → subst2F f₁ l = subst2F f₂ l := by
  intro n
  induction n with
  | zero =>
    intro f₁ f₂ l hn _ _
    have : l = [] := List.length_eq_zero.1 (Nat.le_zero.1 hn)
    rw [this, subst2F_nil, subst2F_nil]
  | succ n ih =>
    intro f₁ f₂ l hn h1 h2
    cases l with
    | nil => rw [subst2F_nil, subst2F_nil]
    | cons c cs =>
      simp only [List.length_cons] at hn h1 h2
      cases f₁ with
      | zero => omega
      | succ f₁ =>
        cases f₂ with
        | zero => omega
        | succ f₂ =>
          cases hm : matchP2 (c :: cs) with
          | none =>
            rw [subst2F_copy _ _ _ hm, subst2F_copy _ _ _ hm,
              ih f₁ f₂ cs (by omega) (by omega) (by omega)]
          | some v =>
            obtain ⟨g1, tok, rest⟩ := v
            have hlen := matchP2_some_len _ _ _ _ hm
            simp only [List.length_cons] at hlen
            rw [subst2F_match _ _ _ _ _ _ hm, subst2F_match _ _ _ _ _ _ hm,
              ih f₁ f₂ rest (by omega) (by omega) (by omega)]

theorem subst2F_eq_subst2 (f : Nat) (l : List Char) (h : l.length ≤ f) :
    subst2F f l = subst2 l :=
  subst2F_fuel (max f l.length) f l.length l (le_max_right _ _) h (le_refl _)

theorem subst1_ne_nil (l : List Char) (h : l ≠ []) : subst1 l ≠ [] := by
  cases l with
  | nil => exact absurd rfl h
  | cons c cs =>
    show subst1F (c :: cs).length (c :: cs) ≠ []
    simp only [List.length_cons]
    cases hm : matchP1 (c :: cs) with
    | none =>
      rw [subst1F_copy _ _ _ hm]
      simp
    | some v =>
      obtain ⟨g1, sec, rest⟩ := v
      rw [subst1F_match _ _ _ _ _ _ hm]
      intro hnil
      rw [List.append_assoc] at hnil
      rcases List.append_eq_nil.1 hnil with ⟨_, h2⟩
      simp at h2

theorem subst2_ne_nil (l : List Char) (h : l ≠ []) : subst2 l ≠ [] := by
  cases l with
  | nil => exact absurd rfl h
  | cons c cs =>
    show subst2F (c :: cs).length (c :: cs) ≠ []
    simp only [List.length_cons]
    cases hm : matchP2 (c :: cs) with
    | none =>
      rw [subst2F_copy _ _ _ hm]
      simp
    | some v =>
      obtain ⟨g1, tok, rest⟩ := v
      rw [subst2F_match _ _ _ _ _ _ hm]
      intro hnil
      rw [List.append_assoc] at hnil
      rcases List.append_eq_nil.1 hnil with ⟨_, h2⟩
      rw [List.append_eq_nil] at h2
      exact marker_ne_nil h2.1

theorem isWs_ne_dash_bool (c : Char) (h : Py.isWs c = true) : c ≠ '-' :=
  isWs_ne_dash c h

theorem wsHead_subst1F (f : Nat) (l : List Char) (h : wsHead l) : wsHead (subst1F f l) := by
  cases l with
  | nil => rw [subst1F_nil]; trivial
  | cons c cs =>
    cases f with
    | zero => exact h
    | succ f =>
      rw [subst1F_copy _ _ _ (matchP1_head_ne c cs (isWs_ne_dash c h))]
      exact h

theorem wsHead_subst2F (f : Nat) (l : List Char) (h : wsHead l) : wsHead (subst2F f l) := by
  cases l with
  | nil => rw [subst2F_nil]; trivial
  | cons c cs =>
    cases f with
    | zero => exact h
    | succ f =>
      rw [subst2F_copy _ _ _ (WL_a c cs (isWs_toLower_ne_a c h))]
      exact h

end Rag

namespace Rag

theorem isEmpty_false_of_ne_nil (l : List Char) (h : l ≠ []) : ¬ (l.isEmpty = true) := by
  cases l with
  | nil => exact absurd rfl h
  | cons c cs => simp

theorem append_ne_nil_left (X Y : List Char) (h : X ≠ []) : X ++ Y ≠ [] := by
  cases X with
  | nil => exact absurd rfl h
  | cons c cs => simp

theorem isWs_not_nwnc (c : Char) (h : Py.isWs c = true) : notWsNotColon c = false := by
  simp [notWsNotColon, h]

theorem isWs_not_notWs (c : Char) (h : Py.isWs c = true) : notWs c = false := by
  simp [notWs, h]

theorem nwnc_not_ws (c : Char) (h : notWsNotColon c = true) : Py.isWs c = false := by
  simp only [notWsNotColon, Bool.and_eq_true, Bool.not_eq_true'] at h
  exact h.1

theorem nwnc_ne_colon (c : Char) (h : notWsNotColon c = true) : c ≠ ':' := by
  simp only [notWsNotColon, Bool.and_eq_true, bne_iff_ne] at h
  exact h.2

theorem notWs_of_nwnc (c : Char) (h : notWsNotColon c = true) : notWs c = true := by
  simp only [notWsNotColon, Bool.and_eq_true] at h
  simp [notWs, h.1]

theorem takeWhile_nwnc_wsHead (r : List Char) (h : wsHead r) :
    r.takeWhile notWsNotColon = [] := by
  cases r with
  | nil => rfl
  | cons c cs =>
    rw [List.takeWhile_cons, if_neg]
    rw [isWs_not_nwnc c h]
    simp

theorem takeWhile_notWs_wsHead (r : List Char) (h : wsHead r) :
    r.takeWhile notWs = [] := by
  cases r with
  | nil => rfl
  | cons c cs =>
    rw [List.takeWhile_cons, if_neg]
    rw [isWs_not_notWs c h]
    simp

theorem dropWhile_nwnc_wsHead (r : List Char) (h : wsHead r) :
    r.dropWhile notWsNotColon = r := by
  cases r with
  | nil => rfl
  | cons c cs =>
    rw [List.dropWhile_cons, if_neg]
    rw [isWs_not_nwnc c h]
    simp

theorem dropWhile_notWs_wsHead (r : List Char) (h : wsHead r) :
    r.dropWhile notWs = r := by
  cases r with
  | nil => rfl
  | cons c cs =>
    rw [List.dropWhile_cons, if_neg]
    rw [isWs_not_notWs c h]
    simp

theorem P1_nm_none (nm' Y : List Char) (hne : nm' ≠ [])
    (hall : ∀ c ∈ nm', notWsNotColon c = true) :
    matchP1 (nm' ++ ':' :: Y) = none := by
  match nm' with
  | [c] =>
    by_cases hc : c = '-'
    · subst hc
      exact matchP1_second_ne '-' ':' Y (by decide)
    · exact matchP1_head_ne c _ hc
  | c :: d :: t =>
    by_cases hc : c = '-'
    · by_cases hd : d = 'u'
      · subst hc; subst hd
        have hall' : ∀ x ∈ t, notWsNotColon x = true := by
          intro x hx
          exact hall x (List.mem_cons_of_mem _ (List.mem_cons_of_mem _ hx))
        rw [show ('-' :: 'u' :: t) ++ ':' :: Y = '-' :: 'u' :: (t ++ ':' :: Y) by simp]
        rw [matchP1_du, if_pos]
        cases t with
        | nil =>
          rw [List.nil_append, List.takeWhile_cons, if_neg (by decide)]
          rfl
        | cons t0 ts =>
          rw [List.cons_append, List.takeWhile_cons, if_neg]
          · rfl
          · rw [nwnc_not_ws t0 (hall' t0 (List.mem_cons_self _ _))]
            simp
      · exact matchP1_second_ne c d _ hd
    · exact matchP1_head_ne c _ hc

theorem takeWhile_ws_to_nwnc (nm X : List Char) (hnm : nm ≠ [])
    (hall : ∀ c ∈ nm, notWsNotColon c = true) :
    (nm ++ X).takeWhile Py.isWs = [] := by
  cases nm with
  | nil => exact absurd rfl hnm
  | cons n0 nm' =>
    rw [List.cons_append, List.takeWhile_cons, if_neg]
    rw [nwnc_not_ws n0 (hall n0 (List.mem_cons_self _ _))]
    simp

theorem dropWhile_ws_to_nwnc (nm X : List Char) (hnm : nm ≠ [])
    (hall : ∀ c ∈ nm, notWsNotColon c = true) :
    (nm ++ X).dropWhile Py.isWs = nm ++ X := by
  cases nm with
  | nil => exact absurd rfl hnm
  | cons n0 nm' =>
    rw [List.cons_append, List.dropWhile_cons, if_neg]
    rw [nwnc_not_ws n0 (hall n0 (List.mem_cons_self _ _))]
    simp

theorem K1_full (w nm T : List Char) (hw : w ≠ [])
    (hwall : ∀ c ∈ w, Py.isWs c = true) (hnm : nm ≠ [])
    (hnmall : ∀ c ∈ nm, notWsNotColon c = true) (hT : wsHead T) :
    matchP1 ('-' :: 'u' :: (w ++ (nm ++ (':' :: (marker ++ T)))))
      = some ('-' :: 'u' :: (w ++ nm), marker, T) := by
  rw [matchP1_du]
  have e1 : (w ++ (nm ++ (':' :: (marker ++ T)))).takeWhile Py.isWs = w := by
    rw [takeWhile_append_all _ _ _ hwall, takeWhile_ws_to_nwnc nm _ hnm hnmall,
      List.append_nil]
  have e2 : (w ++ (nm ++ (':' :: (marker ++ T)))).dropWhile Py.isWs
      = nm ++ (':' :: (marker ++ T)) := by
    rw [dropWhile_append_all _ _ _ hwall, dropWhile_ws_to_nwnc nm _ hnm hnmall]
  have e3 : (nm ++ (':' :: (marker ++ T))).takeWhile notWsNotColon = nm := by
    rw [takeWhile_append_all _ _ _ hnmall, List.takeWhile_cons, if_neg (by decide),
      List.append_nil]
  have e4 : (nm ++ (':' :: (marker ++ T))).dropWhile notWsNotColon
      = ':' :: (marker ++ T) := by
    rw [dropWhile_append_all _ _ _ hnmall, List.dropWhile_cons, if_neg (by decide)]
  have e5 : (marker ++ T).takeWhile notWs = marker := by
    rw [takeWhile_append_all _ _ _ marker_notWs, takeWhile_notWs_wsHead T hT,
      List.append_nil]
  have e6 : (marker ++ T).dropWhile notWs = T := by
    rw [dropWhile_append_all _ _ _ marker_notWs, dropWhile_notWs_wsHead T hT]
  rw [e1, if_neg (isEmpty_false_of_ne_nil w hw), e2, e3,
    if_neg (isEmpty_false_of_ne_nil nm hnm), e4]
  split
  · next r3 heq =>
    rw [List.cons.injEq] at heq
    rw [← heq.2, e5, e6, if_neg (isEmpty_false_of_ne_nil marker marker_ne_nil)]
  · next hne => exact absurd rfl (hne (marker ++ T))

theorem subst1F_divergence : ∀ (n f : Nat) (l : List Char), l.length ≤ n → l.length ≤ f →
    subst1F f l = l ∨ ∃ P sec r4 S, l = P ++ sec ++ r4 ∧ subst1F f l = P ++ marker ++ S ∧
      sec ≠ [] ∧ (∀ c ∈ sec, notWs c = true) ∧ wsHead r4 ∧ wsHead S := by
  intro n
  induction n with
  | zero =>
    intro f l hn _
    have : l = [] := List.length_eq_zero.1 (Nat.le_zero.1 hn)
    rw [this, subst1F_nil]
    exact Or.inl rfl
  | succ n ih =>
    intro f l hn hf
    cases l with
    | nil => rw [subst1F_nil]; exact Or.inl rfl
    | cons c cs =>
      simp only [List.length_cons] at hn hf
      cases f with
      | zero => omega
      | succ f =>
        cases hm : matchP1 (c :: cs) with
        | some v =>
          obtain ⟨g1, sec, rest⟩ := v
          obtain ⟨w, nm, hg1, hl, _, _, _, _, hsec, hsecall, hwsr⟩ :=
            matchP1_some_decomp _ _ _ _ hm
          refine Or.inr ⟨g1 ++ [':'], sec, rest, subst1F f rest, ?_, ?_, hsec, hsecall,
            hwsr, wsHead_subst1F f rest hwsr⟩
          · rw [hl]; simp
          · rw [subst1F_match _ _ _ _ _ _ hm]; simp
        | none =>
          rw [subst1F_copy _ _ _ hm]
          rcases ih f cs (by omega) (by omega) with heq | ⟨P, sec, r4, S, h1, h2, h3, h4, h5, h6⟩
          · exact Or.inl (by rw [heq])
          · refine Or.inr ⟨c :: P, sec, r4, S, ?_, ?_, h3, h4, h5, h6⟩
            · rw [h1]; simp
            · rw [h2]; simp

theorem append_ne_nil_right (X Y : List Char) (h : Y ≠ []) : X ++ Y ≠ [] := by
  cases X with
  | nil => simpa using h
  | cons c cs => simp

theorem matchP1_none_transfer (P a r r' : List Char)
    (ha : a ≠ []) (haall : ∀ c ∈ a, notWs c = true)
    (hr : wsHead r) (hr' : wsHead r')
    (h : matchP1 (P ++ (a ++ r)) = none) :
    matchP1 (P ++ (marker ++ r')) = none := by
  match P with
  | [] =>
    rw [List.nil_append, marker_head, List.cons_append]
    exact matchP1_head_ne '*' _ (by decide)
  | [c] =>
    rw [List.singleton_append, marker_head, List.cons_append]
    exact matchP1_second_ne c '*' _ (by decide)
  | c :: d :: Q =>
    by_cases hc : c = '-'
    · by_cases hd : d = 'u'
      · subst hc; subst hd
        simp only [List.cons_append] at h ⊢
        by_cases hQws : ∀ x ∈ Q, Py.isWs x = true
        · by_cases hQnil : Q = []
          · subst hQnil
            have e0 : (marker ++ r').takeWhile Py.isWs = [] := by
              rw [marker_head, List.cons_append, List.takeWhile_cons, if_neg (by decide)]
            rw [List.nil_append, matchP1_du, e0,
              if_pos (show ([] : List Char).isEmpty = true from rfl)]
          · have e1 : (Q ++ (marker ++ r')).takeWhile Py.isWs = Q := by
              rw [takeWhile_append_all _ _ _ hQws, marker_head, List.cons_append,
                List.takeWhile_cons, if_neg (by decide), List.append_nil]
            have e2 : (Q ++ (marker ++ r')).dropWhile Py.isWs = marker ++ r' := by
              rw [dropWhile_append_all _ _ _ hQws, marker_head, List.cons_append,
                List.dropWhile_cons, if_neg (by decide), ← List.cons_append, ← marker_head]
            have e3 : (marker ++ r').takeWhile notWsNotColon = marker := by
              rw [takeWhile_append_all _ _ _ marker_nwnc, takeWhile_nwnc_wsHead r' hr',
                List.append_nil]
            have e4 : (marker ++ r').dropWhile notWsNotColon = r' := by
              rw [dropWhile_append_all _ _ _ marker_nwnc, dropWhile_nwnc_wsHead r' hr']
            rw [matchP1_du, e1, if_neg (isEmpty_false_of_ne_nil Q hQnil), e2, e3,
              if_neg (isEmpty_false_of_ne_nil marker marker_ne_nil), e4]
            rcases r' with _ | ⟨t, ts⟩
            · split
              · next r3 heq => exact absurd heq (by simp)
              · rfl
            · have ht : t ≠ ':' := isWs_ne_colon t hr'
              split
              · next r3 heq => rw [List.cons.injEq] at heq; exact absurd heq.1 ht
              · rfl
        · have hQ1 : Q.dropWhile Py.isWs ≠ [] := dropWhile_ne_nil_of_stop _ _ hQws
          have e1g : (Q ++ (marker ++ r')).takeWhile Py.isWs = Q.takeWhile Py.isWs :=
            takeWhile_append_stop _ _ _ hQws
          have e1h : (Q ++ (a ++ r)).takeWhile Py.isWs = Q.takeWhile Py.isWs :=
            takeWhile_append_stop _ _ _ hQws
          by_cases hwe : (Q.takeWhile Py.isWs).isEmpty
          · rw [matchP1_du, e1g, if_pos hwe]
          · rw [matchP1_du, e1g, if_neg hwe]
            rw [matchP1_du, e1h, if_neg hwe] at h
            have e2g : (Q ++ (marker ++ r')).dropWhile Py.isWs
                = Q.dropWhile Py.isWs ++ (marker ++ r') := dropWhile_append_stop _ _ _ hQws
            have e2h : (Q ++ (a ++ r)).dropWhile Py.isWs
                = Q.dropWhile Py.isWs ++ (a ++ r) := dropWhile_append_stop _ _ _ hQws
            rw [e2g]
            rw [e2h] at h
            by_cases hQ1n : ∀ x ∈ Q.dropWhile Py.isWs, notWsNotColon x = true
            · have e3 : (Q.dropWhile Py.isWs ++ (marker ++ r')).takeWhile notWsNotColon
                  = Q.dropWhile Py.isWs ++ marker := by
                rw [takeWhile_append_all _ _ _ hQ1n, takeWhile_append_all _ _ _ marker_nwnc,
                  takeWhile_nwnc_wsHead r' hr', List.append_nil]
              have e4 : (Q.dropWhile Py.isWs ++ (marker ++ r')).dropWhile notWsNotColon
                  = r' := by
                rw [dropWhile_append_all _ _ _ hQ1n, dropWhile_append_all _ _ _ marker_nwnc,
                  dropWhile_nwnc_wsHead r' hr']
              rw [e3, if_neg (isEmpty_false_of_ne_nil _ (append_ne_nil_left _ _ hQ1)), e4]
              rcases r' with _ | ⟨t, ts⟩
              · split
                · next r3 heq => exact absurd heq (by simp)
                · rfl
              · have ht : t ≠ ':' := isWs_ne_colon t hr'
                split
                · next r3 heq => rw [List.cons.injEq] at heq; exact absurd heq.1 ht
                · rfl
            · have e3g : (Q.dropWhile Py.isWs ++ (marker ++ r')).takeWhile notWsNotColon
                  = (Q.dropWhile Py.isWs).takeWhile notWsNotColon :=
                takeWhile_append_stop _ _ _ hQ1n
              have e3h : (Q.dropWhile Py.isWs ++ (a ++ r)).takeWhile notWsNotColon
                  = (Q.dropWhile Py.isWs).takeWhile notWsNotColon :=
                takeWhile_append_stop _ _ _ hQ1n
              by_cases hnme : ((Q.dropWhile Py.isWs).takeWhile notWsNotColon).isEmpty
              · rw [e3g, if_pos hnme]
              · rw [e3g, if_neg hnme]
                rw [e3h, if_neg hnme] at h
                have e4g : (Q.dropWhile Py.isWs ++ (marker ++ r')).dropWhile notWsNotColon
                    = (Q.dropWhile Py.isWs).dropWhile notWsNotColon ++ (marker ++ r') :=
                  dropWhile_append_stop _ _ _ hQ1n
                have e4h : (Q.dropWhile Py.isWs ++ (a ++ r)).dropWhile notWsNotColon
                    = (Q.dropWhile Py.isWs).dropWhile notWsNotColon ++ (a ++ r) :=
                  dropWhile_append_stop _ _ _ hQ1n
                rw [e4g]
                rw [e4h] at h
                rcases hQ2 : (Q.dropWhile Py.isWs).dropWhile notWsNotColon with _ | ⟨h0, Q3⟩
                · exact absurd hQ2 (dropWhile_ne_nil_of_stop _ _ hQ1n)
                · rw [hQ2] at h
                  simp only [List.cons_append] at h ⊢
                  by_cases hcol : h0 = ':'
                  · subst hcol
                    split at h
                    · next r3h heqh =>
                      first
                      | (injection heqh with hh1 hh2; rw [← hh2] at h)
                      | rw [← heqh] at h
                      by_cases hQ3 : ∀ x ∈ Q3, notWs x = true
                      · rw [takeWhile_append_all _ _ _ hQ3,
                          takeWhile_append_all _ _ _ haall,
                          takeWhile_notWs_wsHead r hr, List.append_nil] at h
                        rw [if_neg (isEmpty_false_of_ne_nil _
                          (append_ne_nil_right _ _ ha))] at h
                        simp at h
                      · have e5g : (Q3 ++ (marker ++ r')).takeWhile notWs
                            = Q3.takeWhile notWs := takeWhile_append_stop _ _ _ hQ3
                        have e5h : (Q3 ++ (a ++ r)).takeWhile notWs
                            = Q3.takeWhile notWs := takeWhile_append_stop _ _ _ hQ3
                        by_cases hse : (Q3.takeWhile notWs).isEmpty
                        · rw [e5g, if_pos hse]
                        · rw [e5h, if_neg hse] at h
                          simp at h
                    · next hneh => exact absurd rfl (hneh (Q3 ++ (a ++ r)))
                  · split
                    · next r3 heq => rw [List.cons.injEq] at heq; exact absurd heq.1 hcol
                    · rfl
      · exact matchP1_second_ne c d _ hd
    · exact matchP1_head_ne c _ hc

/-- Scan-structure invariant: the pass-1 scanner walks the string either
copying a non-matching head or finding a match whose replaced secret is
already the redaction marker (so replacing reproduces the string). -/
inductive AF : List Char → Prop
  | nil : AF []
  | copy (c : Char) (cs : List Char) : matchP1 (c :: cs) = none → AF cs → AF (c :: cs)
  | repl (l g1 rest : List Char) : matchP1 l = some (g1, marker, rest) → AF rest → AF l

theorem AF_fix (l : List Char) (h : AF l) : subst1 l = l := by
  induction h with
  | nil => rfl
  | copy c cs hnone _ ih =>
    show subst1F (c :: cs).length (c :: cs) = c :: cs
    rw [List.length_cons, subst1F_copy _ _ _ hnone]
    exact congrArg (List.cons c) ih
  | repl l g1 rest hm _ ih =>
    obtain ⟨w, nm, hg1, hl, _⟩ := matchP1_some_decomp _ _ _ _ hm
    cases l with
    | nil => rw [matchP1_nil] at hm; simp at hm
    | cons d ds =>
      show subst1F (d :: ds).length (d :: ds) = d :: ds
      rw [List.length_cons, subst1F_match _ _ _ _ _ _ hm]
      have hlen := matchP1_some_len _ _ _ _ hm
      simp only [List.length_cons] at hlen
      rw [subst1F_eq_subst1 _ _ (by omega), ih]
      exact hl.symm

theorem AF_subst1F : ∀ (n f : Nat) (l : List Char), l.length ≤ n → l.length ≤ f →
    AF (subst1F f l) := by
  intro n
  induction n with
  | zero =>
    intro f l hn _
    have : l = [] := List.length_eq_zero.1 (Nat.le_zero.1 hn)
    rw [this, subst1F_nil]
    exact AF.nil
  | succ n ih =>
    intro f l hn hf
    cases l with
    | nil => rw [subst1F_nil]; exact AF.nil
    | cons c cs =>
      simp only [List.length_cons] at hn hf
      cases f with
      | zero => omega
      | succ f =>
        cases hm : matchP1 (c :: cs) with
        | some v =>
          obtain ⟨g1, sec, rest⟩ := v
          obtain ⟨w, nm, hg1, hl, hwne, hwall, hnmne, hnmall, hsecne, hsecall, hwsr⟩ :=
            matchP1_some_decomp _ _ _ _ hm
          have hlen := matchP1_some_len _ _ _ _ hm
          simp only [List.length_cons] at hlen
          rw [subst1F_match _ _ _ _ _ _ hm]
          have hAFS : AF (subst1F f rest) := ih f rest (by omega) (by omega)
          refine AF.repl _ g1 (subst1F f rest) ?_ hAFS
          rw [hg1]
          rw [show ('-' :: 'u' :: (w ++ nm)) ++ ':' :: marker ++ subst1F f rest
            = '-' :: 'u' :: (w ++ (nm ++ (':' :: (marker ++ subst1F f rest)))) from by simp]
          exact K1_full w nm (subst1F f rest) hwne hwall hnmne hnmall
            (wsHead_subst1F _ _ hwsr)
        | none =>
          rw [subst1F_copy _ _ _ hm]
          refine AF.copy c (subst1F f cs) ?_ (ih f cs (by omega) (by omega))
          rcases subst1F_divergence n f cs (by omega) (by omega) with
            heq | ⟨P, sec, r4, S, h1, h2, h3, h4, h5, h6⟩
          · rw [heq]; exact hm
          · rw [h2]
            have hm' : matchP1 ((c :: P) ++ (sec ++ r4)) = none := by
              rw [show (c :: P) ++ (sec ++ r4) = c :: (P ++ sec ++ r4) from by simp, ← h1]
              exact hm
            have ht := matchP1_none_transfer (c :: P) sec r4 S h3 h4 h5 h6 hm'
            rw [show c :: (P ++ marker ++ S) = (c :: P) ++ (marker ++ S) from by simp]
            exact ht

theorem AF_subst1 (l : List Char) : AF (subst1 l) :=
  AF_subst1F l.length l.length l le_rfl le_rfl

theorem CIdecomp (pat : List Char) : ∀ (l r : List Char), matchCI pat l = some r →
    ∃ A, l = A ++ r ∧ List.Forall₂ (fun c p => c.toLower = p) A pat := by
  induction pat with
  | nil =>
    intro l r h
    simp only [matchCI, Option.some.injEq] at h
    exact ⟨[], by rw [h, List.nil_append], List.Forall₂.nil⟩
  | cons p ps ih =>
    intro l r h
    cases l with
    | nil => simp [matchCI] at h
    | cons c cs =>
      by_cases hb : (c.toLower == p) = true
      · rw [CI_head_ok _ _ _ _ hb] at h
        obtain ⟨A', hA1, hA2⟩ := ih cs r h
        exact ⟨c :: A', by rw [List.cons_append, hA1],
          List.Forall₂.cons (beq_iff_eq.1 hb) hA2⟩
      · rw [CI_head_fail _ _ _ _ (by simpa using hb)] at h
        simp at h

theorem CIappend (A pat : List Char)
    (h : List.Forall₂ (fun c p => c.toLower = p) A pat) (X : List Char) :
    matchCI pat (A ++ X) = some X := by
  induction h with
  | nil => rfl
  | cons hcp _ ih =>
    rw [List.cons_append, CI_head_ok _ _ _ _ (beq_iff_eq.2 hcp)]
    exact ih

theorem CImem (A pat : List Char)
    (h : List.Forall₂ (fun c p => c.toLower = p) A pat) :
    ∀ c ∈ A, c.toLower ∈ pat := by
  induction h with
  | nil => intro c hc; simp at hc
  | cons hcp _ ih =>
    intro c hc
    rcases List.mem_cons.1 hc with rfl | hc2
    · rw [hcp]; exact List.mem_cons_self _ _
    · exact List.mem_cons_of_mem _ (ih c hc2)

theorem CI_L1 : ∀ (P pat X : List Char), pat.length ≤ P.length →
    matchCI pat (P ++ X) = (matchCI pat P).map (fun s => s ++ X) := by
  intro P
  induction P with
  | nil =>
    intro pat X h
    have : pat = [] := List.length_eq_zero.1 (Nat.le_zero.1 (by simpa using h))
    rw [this]
    rfl
  | cons c P' ih =>
    intro pat X h
    cases pat with
    | nil => rfl
    | cons p ps =>
      simp only [List.length_cons] at h
      rw [List.cons_append]
      by_cases hb : (c.toLower == p) = true
      · rw [CI_head_ok _ _ _ _ hb, CI_head_ok _ _ _ _ hb]
        exact ih ps X (by omega)
      · rw [CI_head_fail _ _ _ _ (by simpa using hb),
          CI_head_fail _ _ _ _ (by simpa using hb)]
        rfl

theorem CI_L2 : ∀ (P pat X : List Char), P.length < pat.length →
    matchCI pat (P ++ X)
      = (if matchCI (pat.take P.length) P = some [] then matchCI (pat.drop P.length) X
        else none) := by
  intro P
  induction P with
  | nil =>
    intro pat X _
    rw [List.nil_append, List.length_nil, List.take_zero, List.drop_zero,
      if_pos (show matchCI [] [] = some [] from rfl)]
  | cons c P' ih =>
    intro pat X h
    cases pat with
    | nil => simp at h
    | cons p ps =>
      simp only [List.length_cons] at h
      rw [List.cons_append, List.length_cons, List.take_succ_cons, List.drop_succ_cons]
      by_cases hb : (c.toLower == p) = true
      · rw [CI_head_ok _ _ _ _ hb, CI_head_ok _ _ _ _ hb]
        exact ih ps X (by omega)
      · rw [CI_head_fail _ _ _ _ (by simpa using hb),
          CI_head_fail _ _ _ _ (by simpa using hb), if_neg (by simp)]

theorem matchP2_none_of_A (l : List Char)
    (h : matchCI "authorization:".data l = none) : matchP2 l = none := by
  rw [matchP2, h]

theorem matchP2_none_of_B (l r1 : List Char)
    (hA : matchCI "authorization:".data l = some r1)
    (hB : matchCI "bearer".data (r1.dropWhile Py.isWs) = none) : matchP2 l = none := by
  rw [matchP2, hA]
  simp only []
  rw [hB]

theorem matchP2_none_of_w2 (l r1 r3 : List Char)
    (hA : matchCI "authorization:".data l = some r1)
    (hB : matchCI "bearer".data (r1.dropWhile Py.isWs) = some r3)
    (hw : (r3.takeWhile Py.isWs).isEmpty = true) : matchP2 l = none := by
  rw [matchP2, hA]
  simp only []
  rw [hB]
  simp only []
  rw [if_pos hw]

theorem matchP2_none_of_tok (l r1 r3 : List Char)
    (hA : matchCI "authorization:".data l = some r1)
    (hB : matchCI "bearer".data (r1.dropWhile Py.isWs) = some r3)
    (hw : ¬ ((r3.takeWhile Py.isWs).isEmpty = true))
    (ht : ((r3.dropWhile Py.isWs).takeWhile notWs).isEmpty = true) : matchP2 l = none := by
  rw [matchP2, hA]
  simp only []
  rw [hB]
  simp only []
  rw [if_neg hw, if_pos ht]

theorem matchP2_some_intro (l r1 r3 : List Char)
    (hA : matchCI "authorization:".data l = some r1)
    (hB : matchCI "bearer".data (r1.dropWhile Py.isWs) = some r3)
    (hw : ¬ ((r3.takeWhile Py.isWs).isEmpty = true))
    (ht : ¬ (((r3.dropWhile Py.isWs).takeWhile notWs).isEmpty = true)) :
    matchP2 l = some (l.take (l.length - (r3.dropWhile Py.isWs).length),
      (r3.dropWhile Py.isWs).takeWhile notWs, (r3.dropWhile Py.isWs).dropWhile notWs) := by
  rw [matchP2, hA]
  simp only []
  rw [hB]
  simp only []
  rw [if_neg hw, if_neg ht]

theorem dropWhile_ws_marker (rest : List Char) :
    (marker ++ rest).dropWhile Py.isWs = marker ++ rest := by
  rw [marker_head, List.cons_append, List.dropWhile_cons, if_neg (by decide),
    ← List.cons_append, ← marker_head]

theorem matchCI_bearer_marker (rest : List Char) :
    matchCI "bearer".data (marker ++ rest) = none := by
  rw [patB_eq, marker_head, List.cons_append]
  exact CI_head_fail _ _ _ _ (by decide)

theorem patA_len : ("authorization:".data).length = 14 := by
  rw [patA_eq]
  rfl

theorem WL_nm (nm' rest : List Char) (hne : nm' ≠ [])
    (hall : ∀ c ∈ nm', notWsNotColon c = true) :
    matchP2 (nm' ++ (':' :: (marker ++ rest))) = none := by
  by_cases hlen : 14 ≤ nm'.length
  · -- the CI read of the pattern stays inside nm'; its final ':' meets a nwnc char
    have hsplit : nm' ++ (':' :: (marker ++ rest))
        = nm'.take 13 ++ (nm'.drop 13 ++ (':' :: (marker ++ rest))) := by
      rw [← List.append_assoc, List.take_append_drop]
    have htk : (nm'.take 13).length = 13 := by
      rw [List.length_take]
      omega
    apply matchP2_none_of_A
    rw [hsplit, CI_L2 _ _ _ (by rw [htk, patA_len]; omega), htk]
    by_cases hcond : matchCI (("authorization:".data).take 13) (nm'.take 13) = some []
    · rw [if_pos hcond]
      rcases hdrop : nm'.drop 13 with _ | ⟨d0, ds⟩
      · have : nm'.length ≤ 13 := by
          have := List.length_drop 13 nm'
          rw [hdrop] at this
          simp at this
          omega
        omega
      · have hd0 : d0 ∈ nm' := by
          have : d0 ∈ nm'.drop 13 := by rw [hdrop]; exact List.mem_cons_self _ _
          exact List.mem_of_mem_drop this
        have hd0c : d0 ≠ ':' := nwnc_ne_colon d0 (hall d0 hd0)
        rw [show ("authorization:".data).drop 13 = [':'] from by rw [patA_eq]; rfl]
        exact CI_head_fail _ _ _ _ (ne_colon_toLower d0 hd0c)
    · rw [if_neg hcond]
  · by_cases hk13 : nm'.length = 13
    · -- the pattern's final ':' aligns with the block colon; "bearer" then meets the marker
      rcases hCI : matchCI "authorization:".data (nm' ++ (':' :: (marker ++ rest)))
        with _ | r1
      · exact matchP2_none_of_A _ hCI
      · have hr1 : r1 = marker ++ rest := by
          rw [CI_L2 _ _ _ (by rw [patA_len]; omega), hk13] at hCI
          by_cases hcond : matchCI (("authorization:".data).take 13) nm' = some []
          · rw [if_pos hcond] at hCI
            rw [show ("authorization:".data).drop 13 = [':'] from by rw [patA_eq]; rfl,
              CI_head_ok _ _ _ _ (by decide)] at hCI
            simpa [matchCI] using hCI.symm
          · rw [if_neg hcond] at hCI
            simp at hCI
        apply matchP2_none_of_B _ r1 hCI
        rw [hr1, dropWhile_ws_marker]
        exact matchCI_bearer_marker rest
    · -- the pattern's final ':' would land strictly inside the marker region: a letter
      -- of the pattern meets the block colon first
      apply matchP2_none_of_A
      rw [CI_L2 _ _ _ (by rw [patA_len]; omega)]
      by_cases hcond : matchCI (("authorization:".data).take nm'.length) nm' = some []
      · rw [if_pos hcond]
        have hpos : 1 ≤ nm'.length := by
          have := List.length_pos.2 hne
          omega
        have hup : nm'.length ≤ 12 := by omega
        generalize hgen : nm'.length = k at hpos hup ⊢
        interval_cases k <;> rw [patA_eq] <;> exact CI_head_fail _ _ _ _ (by decide)
      · rw [if_neg hcond]

theorem WL_AC (X : List Char) : matchP2 ('A' :: 'C' :: X) = none := by
  apply matchP2_none_of_A
  rw [patA_eq, CI_head_ok _ _ _ _ (by decide)]
  exact CI_head_fail _ _ _ _ (by decide)

theorem walk2_ws : ∀ (w : List Char) (T : List Char) (f : Nat),
    (∀ c ∈ w, Py.isWs c = true) →
    subst2F (w.length + f) (w ++ T) = w ++ subst2F f T := by
  intro w
  induction w with
  | nil =>
    intro T f _
    rw [List.nil_append, List.length_nil, Nat.zero_add, List.nil_append]
  | cons a w' ih =>
    intro T f hall
    rw [List.cons_append, List.length_cons,
      show w'.length + 1 + f = (w'.length + f) + 1 from by omega,
      subst2F_copy _ _ _ (WL_a _ _ (isWs_toLower_ne_a a (hall a (List.mem_cons_self _ _)))),
      ih T f (fun c hc => hall c (List.mem_cons_of_mem _ hc)), List.cons_append]

theorem walk2_nm : ∀ (nm : List Char) (rest : List Char) (f : Nat),
    (∀ c ∈ nm, notWsNotColon c = true) →
    subst2F (nm.length + f) (nm ++ (':' :: (marker ++ rest)))
      = nm ++ subst2F f (':' :: (marker ++ rest)) := by
  intro nm
  induction nm with
  | nil =>
    intro rest f _
    rw [List.nil_append, List.length_nil, Nat.zero_add, List.nil_append]
  | cons n0 nm' ih =>
    intro rest f hall
    have hstep : matchP2 ((n0 :: nm') ++ (':' :: (marker ++ rest))) = none :=
      WL_nm (n0 :: nm') rest (by simp) hall
    rw [List.cons_append] at hstep
    rw [List.cons_append, List.length_cons,
      show nm'.length + 1 + f = (nm'.length + f) + 1 from by omega,
      subst2F_copy _ _ _ hstep,
      ih rest f (fun c hc => hall c (List.mem_cons_of_mem _ hc)), List.cons_append]

theorem walk2_marker (rest : List Char) (f : Nat) :
    subst2F (14 + f) (marker ++ rest) = marker ++ subst2F f rest := by
  rw [show marker ++ rest
      = '*' :: '*' :: '*' :: 'R' :: 'E' :: 'D' :: 'A' :: 'C' :: 'T' :: 'E' :: 'D' :: '*' :: '*' :: '*' :: rest from rfl]
  rw [show (14:Nat) + f = (13 + f) + 1 from by omega,
    subst2F_copy _ _ _ (WL_a _ _ (by decide)),
    show (13:Nat) + f = (12 + f) + 1 from by omega,
    subst2F_copy _ _ _ (WL_a _ _ (by decide)),
    show (12:Nat) + f = (11 + f) + 1 from by omega,
    subst2F_copy _ _ _ (WL_a _ _ (by decide)),
    show (11:Nat) + f = (10 + f) + 1 from by omega,
    subst2F_copy _ _ _ (WL_a _ _ (by decide)),
    show (10:Nat) + f = (9 + f) + 1 from by omega,
    subst2F_copy _ _ _ (WL_a _ _ (by decide)),
    show (9:Nat) + f = (8 + f) + 1 from by omega,
    subst2F_copy _ _ _ (WL_a _ _ (by decide)),
    show (8:Nat) + f = (7 + f) + 1 from by omega,
    subst2F_copy _ _ _ (WL_AC _),
    show (7:Nat) + f = (6 + f) + 1 from by omega,
    subst2F_copy _ _ _ (WL_a _ _ (by decide)),
    show (6:Nat) + f = (5 + f) + 1 from by omega,
    subst2F_copy _ _ _ (WL_a _ _ (by decide)),
    show (5:Nat) + f = (4 + f) + 1 from by omega,
    subst2F_copy _ _ _ (WL_a _ _ (by decide)),
    show (4:Nat) + f = (3 + f) + 1 from by omega,
    subst2F_copy _ _ _ (WL_a _ _ (by decide)),
    show (3:Nat) + f = (2 + f) + 1 from by omega,
    subst2F_copy _ _ _ (WL_a _ _ (by decide)),
    show (2:Nat) + f = (1 + f) + 1 from by omega,
    subst2F_copy _ _ _ (WL_a _ _ (by decide)),
    show (1:Nat) + f = f + 1 from by omega,
    subst2F_copy _ _ _ (WL_a _ _ (by decide))]
  rfl

theorem walk2_colon_marker (rest : List Char) (f : Nat) :
    subst2F (15 + f) (':' :: (marker ++ rest)) = ':' :: (marker ++ subst2F f rest) := by
  rw [show (15:Nat) + f = (14 + f) + 1 from by omega,
    subst2F_copy _ _ _ (WL_a _ _ (by decide)), walk2_marker]

theorem walk2_block (w nm rest : List Char) (f : Nat)
    (hwall : ∀ c ∈ w, Py.isWs c = true)
    (hnmall : ∀ c ∈ nm, notWsNotColon c = true) :
    subst2F ((2 + (w.length + (nm.length + 15))) + f)
        ('-' :: 'u' :: (w ++ (nm ++ (':' :: (marker ++ rest)))))
      = '-' :: 'u' :: (w ++ (nm ++ (':' :: (marker ++ subst2F f rest)))) := by
  rw [show (2 + (w.length + (nm.length + 15))) + f
      = ((w.length + (nm.length + (15 + f))) + 1) + 1 from by omega,
    subst2F_copy _ _ _ (WL_a _ _ (by decide)),
    subst2F_copy _ _ _ (WL_a _ _ (by decide)),
    walk2_ws w _ _ hwall, walk2_nm nm _ _ hnmall, walk2_colon_marker]

theorem matchP2_some_decomp (l g1 tok r5 : List Char)
    (h : matchP2 l = some (g1, tok, r5)) :
    ∃ A W1 B W2, l = A ++ (W1 ++ (B ++ (W2 ++ (tok ++ r5)))) ∧
      g1 = A ++ (W1 ++ (B ++ W2)) ∧
      List.Forall₂ (fun c p => c.toLower = p) A ("authorization:".data) ∧
      (∀ c ∈ W1, Py.isWs c = true) ∧
      List.Forall₂ (fun c p => c.toLower = p) B ("bearer".data) ∧
      W2 ≠ [] ∧ (∀ c ∈ W2, Py.isWs c = true) ∧
      tok ≠ [] ∧ (∀ c ∈ tok, notWs c = true) ∧ wsHead r5 := by
  rw [matchP2] at h
  rcases h1 : matchCI "authorization:".data l with _ | r1
  · rw [h1] at h; simp at h
  · rw [h1] at h
    simp only [] at h
    rcases h2 : matchCI "bearer".data (r1.dropWhile Py.isWs) with _ | r3
    · rw [h2] at h; simp at h
    · rw [h2] at h
      simp only [] at h
      by_cases hw2 : (r3.takeWhile Py.isWs).isEmpty
      · rw [if_pos hw2] at h; simp at h
      · rw [if_neg hw2] at h
        by_cases htok : ((r3.dropWhile Py.isWs).takeWhile notWs).isEmpty
        · rw [if_pos htok] at h; simp at h
        · rw [if_neg htok] at h
          simp only [Option.some.injEq, Prod.mk.injEq] at h
          obtain ⟨hg1, htok2, hr52⟩ := h
          obtain ⟨A, hA1, hA2⟩ := CIdecomp _ _ _ h1
          obtain ⟨B, hB1, hB2⟩ := CIdecomp _ _ _ h2
          have hr1 : r1 = r1.takeWhile Py.isWs ++ (B ++ r3) := by
            rw [← hB1, List.takeWhile_append_dropWhile]
          have hr3 : r3 = r3.takeWhile Py.isWs ++ r3.dropWhile Py.isWs :=
            (List.takeWhile_append_dropWhile _ _).symm
          have hr4 : r3.dropWhile Py.isWs
              = (r3.dropWhile Py.isWs).takeWhile notWs
                ++ (r3.dropWhile Py.isWs).dropWhile notWs :=
            (List.takeWhile_append_dropWhile _ _).symm
          have hlform : l = (A ++ (r1.takeWhile Py.isWs ++ (B ++ r3.takeWhile Py.isWs)))
              ++ r3.dropWhile Py.isWs := by
            rw [hA1]
            conv_lhs => rw [hr1]
            conv_lhs => rw [hr3]
            simp [List.append_assoc]
          refine ⟨A, r1.takeWhile Py.isWs, B, r3.takeWhile Py.isWs, ?_, ?_, hA2,
            fun c hc => List.mem_takeWhile_imp hc, hB2, ?_, ?_, ?_, ?_, ?_⟩
          · rw [← htok2, ← hr52, hlform, ← hr4]
            simp [List.append_assoc]
          · rw [← hg1, hlform, List.length_append, Nat.add_sub_cancel, List.take_left]
          · intro hnil; rw [hnil] at hw2; exact hw2 rfl
          · exact fun c hc => List.mem_takeWhile_imp hc
          · rw [← htok2]
            intro hnil; rw [hnil] at htok; exact htok rfl
          · rw [← htok2]
            exact fun c hc => List.mem_takeWhile_imp hc
          · rw [← hr52]
            exact wsHead_dropWhile_notWs _

theorem notWs_head_of_bearer (B : List Char)
    (hB : List.Forall₂ (fun c p => c.toLower = p) B ("bearer".data)) :
    ∃ b0 B', B = b0 :: B' ∧ Py.isWs b0 = false := by
  rw [patB_eq] at hB
  cases hB with
  | cons hb0 hrest =>
    rename_i b0 B'
    refine ⟨b0, B', rfl, ?_⟩
    by_cases hws : Py.isWs b0 = true
    · have hne := isWs_toLower_ne b0 'b' hws (by decide)
      rw [hb0] at hne
      simp at hne
    · simpa using hws

theorem K2_full (A W1 B W2 T : List Char)
    (hA : List.Forall₂ (fun c p => c.toLower = p) A ("authorization:".data))
    (hW1 : ∀ c ∈ W1, Py.isWs c = true)
    (hB : List.Forall₂ (fun c p => c.toLower = p) B ("bearer".data))
    (hW2 : W2 ≠ []) (hW2all : ∀ c ∈ W2, Py.isWs c = true) (hT : wsHead T) :
    matchP2 ((A ++ (W1 ++ (B ++ W2))) ++ (marker ++ T))
      = some (A ++ (W1 ++ (B ++ W2)), marker, T) := by
  obtain ⟨b0, B', hBeq, hb0ws⟩ := notWs_head_of_bearer B hB
  have hassoc : (A ++ (W1 ++ (B ++ W2))) ++ (marker ++ T)
      = A ++ (W1 ++ (B ++ (W2 ++ (marker ++ T)))) := by simp [List.append_assoc]
  have hA' : matchCI "authorization:".data ((A ++ (W1 ++ (B ++ W2))) ++ (marker ++ T))
      = some (W1 ++ (B ++ (W2 ++ (marker ++ T)))) := by
    rw [hassoc]
    exact CIappend A _ hA _
  have hdrop1 : (W1 ++ (B ++ (W2 ++ (marker ++ T)))).dropWhile Py.isWs
      = B ++ (W2 ++ (marker ++ T)) := by
    rw [dropWhile_append_all _ _ _ hW1, hBeq, List.cons_append, List.dropWhile_cons,
      if_neg (by rw [hb0ws]; simp), ← List.cons_append, ← hBeq]
  have hB' : matchCI "bearer".data ((W1 ++ (B ++ (W2 ++ (marker ++ T)))).dropWhile Py.isWs)
      = some (W2 ++ (marker ++ T)) := by
    rw [hdrop1]
    exact CIappend B _ hB _
  have hw2take : (W2 ++ (marker ++ T)).takeWhile Py.isWs = W2 := by
    rw [takeWhile_append_all _ _ _ hW2all, marker_head, List.cons_append,
      List.takeWhile_cons, if_neg (by decide), List.append_nil]
  have hw2drop : (W2 ++ (marker ++ T)).dropWhile Py.isWs = marker ++ T := by
    rw [dropWhile_append_all _ _ _ hW2all, dropWhile_ws_marker]
  have htokt : (marker ++ T).takeWhile notWs = marker := by
    rw [takeWhile_append_all _ _ _ marker_notWs, takeWhile_notWs_wsHead T hT,
      List.append_nil]
  have htokd : (marker ++ T).dropWhile notWs = T := by
    rw [dropWhile_append_all _ _ _ marker_notWs, dropWhile_notWs_wsHead T hT]
  have hmain := matchP2_some_intro _ _ _ hA' hB'
    (by rw [hw2take]; exact isEmpty_false_of_ne_nil W2 hW2)
    (by rw [hw2drop, htokt]; exact isEmpty_false_of_ne_nil marker marker_ne_nil)
  rw [hw2drop, htokt, htokd] at hmain
  rw [hmain, List.length_append, Nat.add_sub_cancel, List.take_left]

theorem subst2F_divergence : ∀ (n f : Nat) (l : List Char), l.length ≤ n → l.length ≤ f →
    subst2F f l = l ∨ ∃ P tok r5 S, l = P ++ tok ++ r5 ∧ subst2F f l = P ++ marker ++ S ∧
      tok ≠ [] ∧ (∀ c ∈ tok, notWs c = true) ∧ wsHead r5 ∧ wsHead S := by
  intro n
  induction n with
  | zero =>
    intro f l hn _
    have : l = [] := List.length_eq_zero.1 (Nat.le_zero.1 hn)
    rw [this, subst2F_nil]
    exact Or.inl rfl
  | succ n ih =>
    intro f l hn hf
    cases l with
    | nil => rw [subst2F_nil]; exact Or.inl rfl
    | cons c cs =>
      simp only [List.length_cons] at hn hf
      cases f with
      | zero => omega
      | succ f =>
        cases hm : matchP2 (c :: cs) with
        | some v =>
          obtain ⟨g1, tok, r5⟩ := v
          obtain ⟨A, W1, B, W2, hl, hg1, _, _, _, _, _, htokne, htokall, hwsr⟩ :=
            matchP2_some_decomp _ _ _ _ hm
          refine Or.inr ⟨g1, tok, r5, subst2F f r5, ?_, ?_, htokne, htokall,
            hwsr, wsHead_subst2F f r5 hwsr⟩
          · rw [hl, hg1]; simp [List.append_assoc]
          · rw [subst2F_match _ _ _ _ _ _ hm]
        | none =>
          rw [subst2F_copy _ _ _ hm]
          rcases ih f cs (by omega) (by omega) with heq | ⟨P, tok, r5, S, h1, h2, h3, h4, h5, h6⟩
          · exact Or.inl (by rw [heq])
          · refine Or.inr ⟨c :: P, tok, r5, S, ?_, ?_, h3, h4, h5, h6⟩
            · rw [h1]; simp
            · rw [h2]; simp


theorem patB_len : ("bearer".data).length = 6 := by
  rw [patB_eq]
  rfl

theorem matchP2_none_transfer (P a r r' : List Char)
    (ha : a ≠ []) (haall : ∀ c ∈ a, notWs c = true)
    (hr : wsHead r) (hr' : wsHead r')
    (h : matchP2 (P ++ (a ++ r)) = none) :
    matchP2 (P ++ (marker ++ r')) = none := by
  have hahead : ∀ X : List Char, (a ++ X).dropWhile Py.isWs = a ++ X := by
    intro X
    cases a with
    | nil => exact absurd rfl ha
    | cons a0 a' =>
      rw [List.cons_append, List.dropWhile_cons, if_neg]
      rw [show Py.isWs a0 = false from by
        have h0 := haall a0 (List.mem_cons_self _ _)
        simp only [notWs, Bool.not_eq_true'] at h0
        exact h0]
      simp
  have hatakews : ∀ X : List Char, (a ++ X).takeWhile Py.isWs = [] := by
    intro X
    cases a with
    | nil => exact absurd rfl ha
    | cons a0 a' =>
      rw [List.cons_append, List.takeWhile_cons, if_neg]
      rw [show Py.isWs a0 = false from by
        have h0 := haall a0 (List.mem_cons_self _ _)
        simp only [notWs, Bool.not_eq_true'] at h0
        exact h0]
      simp
  have hatake : ∀ X : List Char, wsHead X → (a ++ X).takeWhile notWs = a := by
    intro X hX
    rw [takeWhile_append_all _ _ _ haall, takeWhile_notWs_wsHead X hX, List.append_nil]
  by_cases hP14 : 14 ≤ P.length
  · rcases hAP : matchCI "authorization:".data P with _ | rP
    · apply matchP2_none_of_A
      rw [CI_L1 _ _ _ (by rw [patA_len]; omega), hAP]
      rfl
    · have hAg : matchCI "authorization:".data (P ++ (marker ++ r'))
          = some (rP ++ (marker ++ r')) := by
        rw [CI_L1 _ _ _ (by rw [patA_len]; omega), hAP]
        rfl
      have hAh : matchCI "authorization:".data (P ++ (a ++ r))
          = some (rP ++ (a ++ r)) := by
        rw [CI_L1 _ _ _ (by rw [patA_len]; omega), hAP]
        rfl
      by_cases hrPws : ∀ c ∈ rP, Py.isWs c = true
      · apply matchP2_none_of_B _ _ hAg
        rw [dropWhile_append_all _ _ _ hrPws, dropWhile_ws_marker]
        exact matchCI_bearer_marker r'
      · have hrP1 : rP.dropWhile Py.isWs ≠ [] := dropWhile_ne_nil_of_stop _ _ hrPws
        have hdg : (rP ++ (marker ++ r')).dropWhile Py.isWs
            = rP.dropWhile Py.isWs ++ (marker ++ r') := dropWhile_append_stop _ _ _ hrPws
        have hdh : (rP ++ (a ++ r)).dropWhile Py.isWs
            = rP.dropWhile Py.isWs ++ (a ++ r) := dropWhile_append_stop _ _ _ hrPws
        by_cases hrP6 : 6 ≤ (rP.dropWhile Py.isWs).length
        · rcases hBP : matchCI "bearer".data (rP.dropWhile Py.isWs) with _ | rB
          · apply matchP2_none_of_B _ _ hAg
            rw [hdg, CI_L1 _ _ _ (by rw [patB_len]; omega), hBP]
            rfl
          · have hBg : matchCI "bearer".data
                ((rP ++ (marker ++ r')).dropWhile Py.isWs)
                = some (rB ++ (marker ++ r')) := by
              rw [hdg, CI_L1 _ _ _ (by rw [patB_len]; omega), hBP]
              rfl
            have hBh : matchCI "bearer".data
                ((rP ++ (a ++ r)).dropWhile Py.isWs) = some (rB ++ (a ++ r)) := by
              rw [hdh, CI_L1 _ _ _ (by rw [patB_len]; omega), hBP]
              rfl
            by_cases hrBws : ∀ c ∈ rB, Py.isWs c = true
            · by_cases hrBnil : rB = []
              · apply matchP2_none_of_w2 _ _ _ hAg hBg
                subst hrBnil
                rw [List.nil_append, marker_head, List.cons_append, List.takeWhile_cons,
                  if_neg (by decide)]
                rfl
              · have hsome := matchP2_some_intro _ _ _ hAh hBh
                  (by
                    rw [takeWhile_append_all _ _ _ hrBws, hatakews, List.append_nil]
                    exact isEmpty_false_of_ne_nil rB hrBnil)
                  (by
                    rw [dropWhile_append_all _ _ _ hrBws, hahead, hatake r hr]
                    exact isEmpty_false_of_ne_nil a ha)
                rw [h] at hsome
                simp at hsome
            · have hrB1 : rB.dropWhile Py.isWs ≠ [] := dropWhile_ne_nil_of_stop _ _ hrBws
              by_cases hw2e : (rB.takeWhile Py.isWs).isEmpty
              · apply matchP2_none_of_w2 _ _ _ hAg hBg
                rw [takeWhile_append_stop _ _ _ hrBws]
                exact hw2e
              · rcases hrBd : rB.dropWhile Py.isWs with _ | ⟨d, ds⟩
                · exact absurd hrBd hrB1
                · have hdnw : notWs d = true := by
                    have hx := dropWhile_head_not Py.isWs rB d ds hrBd
                    simp [notWs, hx]
                  have hsome := matchP2_some_intro _ _ _ hAh hBh
                    (by
                      rw [takeWhile_append_stop _ _ _ hrBws]
                      exact hw2e)
                    (by
                      rw [dropWhile_append_stop _ _ _ hrBws, hrBd, List.cons_append,
                        List.takeWhile_cons, if_pos hdnw]
                      simp)
                  rw [h] at hsome
                  simp at hsome
        · apply matchP2_none_of_B _ _ hAg
          rw [hdg, CI_L2 _ _ _ (by rw [patB_len]; omega)]
          by_cases hcond : matchCI (("bearer".data).take (rP.dropWhile Py.isWs).length)
              (rP.dropWhile Py.isWs) = some []
          · rw [if_pos hcond]
            have hk1 : 1 ≤ (rP.dropWhile Py.isWs).length := List.length_pos.2 hrP1
            have hk5 : (rP.dropWhile Py.isWs).length ≤ 5 := by omega
            generalize hgen : (rP.dropWhile Py.isWs).length = k at hk1 hk5 ⊢
            interval_cases k <;>
              (rw [patB_eq, marker_head, List.cons_append];
                exact CI_head_fail _ _ _ _ (by decide))
          · rw [if_neg hcond]
  · apply matchP2_none_of_A
    rw [CI_L2 _ _ _ (by rw [patA_len]; omega)]
    by_cases hcond : matchCI (("authorization:".data).take P.length) P = some []
    · rw [if_pos hcond]
      have hk13 : P.length ≤ 13 := by omega
      generalize hgen : P.length = k at hk13 ⊢
      interval_cases k <;>
        (rw [patA_eq, marker_head, List.cons_append];
          exact CI_head_fail _ _ _ _ (by decide))
    · rw [if_neg hcond]

theorem drop_append_ge (X Y : List Char) : ∀ (n : Nat), X.length ≤ n →
    (X ++ Y).drop n = Y.drop (n - X.length) := by
  induction X with
  | nil => intro n _; rw [List.nil_append, List.length_nil, Nat.sub_zero]
  | cons x X' ih =>
    intro n hn
    cases n with
    | zero => simp at hn
    | succ n =>
      rw [List.cons_append, List.drop_succ_cons, List.length_cons,
        Nat.succ_sub_succ, ih n (by simpa using hn)]

theorem AFpre_nodash (D : List Char) : ∀ (X : List Char), (∀ c ∈ D, c ≠ '-') → AF X →
    AF (D ++ X) := by
  induction D with
  | nil => intro X _ hX; rw [List.nil_append]; exact hX
  | cons d D' ih =>
    intro X hD hX
    rw [List.cons_append]
    exact AF.copy d (D' ++ X)
      (matchP1_head_ne d _ (hD d (List.mem_cons_self _ _)))
      (ih X (fun c hc => hD c (List.mem_cons_of_mem _ hc)) hX)

theorem mem_CI_ne_dash (A pat : List Char)
    (hF : List.Forall₂ (fun c p => c.toLower = p) A pat) (hp : '-' ∉ pat) :
    ∀ c ∈ A, c ≠ '-' := by
  intro c hc hdash
  subst hdash
  have := CImem A pat hF '-' hc
  rw [show ('-' : Char).toLower = '-' from by decide] at this
  exact hp this

theorem AF_colon_marker (rest : List Char) (h : AF rest) : AF (':' :: (marker ++ rest)) := by
  refine AF.copy ':' (marker ++ rest) (matchP1_head_ne ':' _ (by decide)) ?_
  exact AFpre_nodash marker rest marker_no_dash h

theorem AF_nm_chain : ∀ (ns rest : List Char), (∀ c ∈ ns, notWsNotColon c = true) →
    AF rest → AF (ns ++ (':' :: (marker ++ rest))) := by
  intro ns
  induction ns with
  | nil => intro rest _ h; rw [List.nil_append]; exact AF_colon_marker rest h
  | cons n0 ns' ih =>
    intro rest hall h
    rw [List.cons_append]
    refine AF.copy n0 (ns' ++ (':' :: (marker ++ rest))) ?_
      (ih rest (fun c hc => hall c (List.mem_cons_of_mem _ hc)) h)
    have := P1_nm_none (n0 :: ns') (marker ++ rest) (by simp) hall
    rw [List.cons_append] at this
    exact this

theorem AF_w_chain : ∀ (ws nm rest : List Char), (∀ c ∈ ws, Py.isWs c = true) →
    (∀ c ∈ nm, notWsNotColon c = true) → AF rest →
    AF (ws ++ (nm ++ (':' :: (marker ++ rest)))) := by
  intro ws
  induction ws with
  | nil => intro nm rest _ hnm h; rw [List.nil_append]; exact AF_nm_chain nm rest hnm h
  | cons w0 ws' ih =>
    intro nm rest hall hnm h
    rw [List.cons_append]
    exact AF.copy w0 _
      (matchP1_head_ne w0 _ (isWs_ne_dash w0 (hall w0 (List.mem_cons_self _ _))))
      (ih nm rest (fun c hc => hall c (List.mem_cons_of_mem _ hc)) hnm h)

theorem AF_drop (l : List Char) (h : AF l) : ∀ (d : Nat), AF (l.drop d) := by
  induction h with
  | nil => intro d; rw [List.drop_nil]; exact AF.nil
  | copy c cs hnone hcs ih =>
    intro d
    cases d with
    | zero => exact AF.copy c cs hnone hcs
    | succ d => rw [List.drop_succ_cons]; exact ih d
  | repl l g1 rest hm hrest ih =>
    intro d
    obtain ⟨w, nm, hg1, hl, hwne, hwall, hnmne, hnmall, _, _, hwsr⟩ :=
      matchP1_some_decomp _ _ _ _ hm
    have hlnorm : l = '-' :: 'u' :: (w ++ (nm ++ (':' :: (marker ++ rest)))) := by
      rw [hl, hg1]; simp [List.append_assoc]
    cases d with
    | zero => exact AF.repl l g1 rest hm hrest
    | succ d =>
      rw [hlnorm, List.drop_succ_cons]
      cases d with
      | zero =>
        rw [List.drop_zero]
        exact AF.copy 'u' _ (matchP1_head_ne 'u' _ (by decide))
          (AF_w_chain w nm rest hwall hnmall hrest)
      | succ e =>
        rw [List.drop_succ_cons]
        by_cases he1 : e ≤ w.length
        · rw [List.drop_append_of_le_length he1]
          exact AF_w_chain (w.drop e) nm rest
            (fun c hc => hwall c (List.mem_of_mem_drop hc)) hnmall hrest
        · rw [drop_append_ge _ _ e (by omega)]
          by_cases he2 : e - w.length ≤ nm.length
          · rw [List.drop_append_of_le_length he2]
            exact AF_nm_chain (nm.drop (e - w.length)) rest
              (fun c hc => hnmall c (List.mem_of_mem_drop hc)) hrest
          · rw [drop_append_ge _ _ _ (by omega)]
            rcases he3 : e - w.length - nm.length with _ | e3
            · omega
            · rw [List.drop_succ_cons]
              by_cases he4 : e3 ≤ marker.length
              · rw [List.drop_append_of_le_length he4]
                exact AFpre_nodash (marker.drop e3) rest
                  (fun c hc => marker_no_dash c (List.mem_of_mem_drop hc)) hrest
              · rw [drop_append_ge _ _ _ (by omega)]
                exact ih _

theorem marker_len : marker.length = 14 := by decide

theorem AF_subst2F : ∀ (n f : Nat) (l : List Char), l.length ≤ n → l.length ≤ f →
    AF l → AF (subst2F f l) := by
  intro n
  induction n with
  | zero =>
    intro f l hn _ _
    have : l = [] := List.length_eq_zero.1 (Nat.le_zero.1 hn)
    rw [this, subst2F_nil]
    exact AF.nil
  | succ n ih =>
    intro f l hn hf hAF
    cases hAF with
    | nil => rw [subst2F_nil]; exact AF.nil
    | copy c cs hnone hcs =>
      simp only [List.length_cons] at hn hf
      cases f with
      | zero => omega
      | succ f =>
        cases hm : matchP2 (c :: cs) with
        | none =>
          rw [subst2F_copy _ _ _ hm]
          refine AF.copy c (subst2F f cs) ?_ (ih f cs (by omega) (by omega) hcs)
          rcases subst2F_divergence n f cs (by omega) (by omega) with
            heq | ⟨P, tok, r5, S, h1, h2, h3, h4, h5, h6⟩
          · rw [heq]; exact hnone
          · rw [h2]
            have hm' : matchP1 ((c :: P) ++ (tok ++ r5)) = none := by
              rw [show (c :: P) ++ (tok ++ r5) = c :: (P ++ tok ++ r5) from by simp, ← h1]
              exact hnone
            have ht := matchP1_none_transfer (c :: P) tok r5 S h3 h4 h5 h6 hm'
            rw [show c :: (P ++ marker ++ S) = (c :: P) ++ (marker ++ S) from by simp]
            exact ht
        | some v =>
          obtain ⟨g1, tok, r5⟩ := v
          obtain ⟨A, W1, B, W2, hl, hg1, hFA, hW1, hFB, hW2ne, hW2, htokne, htokall, hwsr⟩ :=
            matchP2_some_decomp _ _ _ _ hm
          have hlen := matchP2_some_len _ _ _ _ hm
          simp only [List.length_cons] at hlen
          rw [subst2F_match _ _ _ _ _ _ hm]
          have hXfact : c :: cs = (A ++ (W1 ++ (B ++ (W2 ++ tok)))) ++ r5 := by
            rw [hl]; simp [List.append_assoc]
          have hAFr5 : AF r5 := by
            have hh := AF_drop (c :: cs) (AF.copy c cs hnone hcs)
              ((A ++ (W1 ++ (B ++ (W2 ++ tok)))).length)
            rw [hXfact, List.drop_left] at hh
            exact hh
          have hAFS : AF (subst2F f r5) := ih f r5 (by omega) (by omega) hAFr5
          have hnd : ∀ x ∈ g1 ++ marker, x ≠ '-' := by
            intro x hx
            rw [hg1] at hx
            rcases List.mem_append.1 hx with hx | hx
            · rcases List.mem_append.1 hx with hx | hx
              · exact mem_CI_ne_dash A _ hFA (by decide) x hx
              · rcases List.mem_append.1 hx with hx | hx
                · exact isWs_ne_dash x (hW1 x hx)
                · rcases List.mem_append.1 hx with hx | hx
                  · exact mem_CI_ne_dash B _ hFB (by decide) x hx
                  · exact isWs_ne_dash x (hW2 x hx)
            · exact marker_no_dash x hx
          have hout := AFpre_nodash (g1 ++ marker) (subst2F f r5) hnd hAFS
          rw [List.append_assoc] at hout
          rw [List.append_assoc]
          exact hout
    | repl l g1 rest hm hrest =>
      obtain ⟨w, nm, hg1, hl, hwne, hwall, hnmne, hnmall, _, _, hwsr⟩ :=
        matchP1_some_decomp _ _ _ _ hm
      have hlnorm : l = '-' :: 'u' :: (w ++ (nm ++ (':' :: (marker ++ rest)))) := by
        rw [hl, hg1]; simp [List.append_assoc]
      have hlen : l.length = 17 + w.length + nm.length + rest.length := by
        rw [hlnorm]
        simp [List.length_append, marker_len]
        omega
      rw [hlnorm]
      rw [show f = (2 + (w.length + (nm.length + 15))) + (f - (17 + w.length + nm.length))
        from by omega]
      rw [walk2_block w nm rest _ hwall hnmall]
      refine AF.repl _ ('-' :: 'u' :: (w ++ nm))
        (subst2F (f - (17 + w.length + nm.length)) rest) ?_ ?_
      · exact K1_full w nm _ hwne hwall hnmne hnmall (wsHead_subst2F _ _ hwsr)
      · exact ih _ rest (by omega) (by omega) hrest

theorem matchP2_nil : matchP2 [] = none := by
  apply matchP2_none_of_A
  rw [patA_eq]
  rfl

theorem subst2_eq_of_none (c : Char) (cs : List Char) (h : matchP2 (c :: cs) = none) :
    subst2 (c :: cs) = c :: subst2 cs := by
  show subst2F (c :: cs).length (c :: cs) = c :: subst2 cs
  rw [List.length_cons, subst2F_copy _ _ _ h]
  rfl

theorem subst2_eq_of_match (l g1 tok r5 : List Char)
    (h : matchP2 l = some (g1, tok, r5)) :
    subst2 l = g1 ++ marker ++ subst2 r5 := by
  cases l with
  | nil => rw [matchP2_nil] at h; simp at h
  | cons c cs =>
    show subst2F (c :: cs).length (c :: cs) = g1 ++ marker ++ subst2 r5
    rw [List.length_cons, subst2F_match _ _ _ _ _ _ h]
    have hlen := matchP2_some_len _ _ _ _ h
    simp only [List.length_cons] at hlen
    rw [subst2F_eq_subst2 _ _ (by omega)]

theorem subst2_idemF : ∀ (n f : Nat) (l : List Char), l.length ≤ n → l.length ≤ f →
    subst2 (subst2F f l) = subst2F f l := by
  intro n
  induction n with
  | zero =>
    intro f l hn _
    have : l = [] := List.length_eq_zero.1 (Nat.le_zero.1 hn)
    rw [this, subst2F_nil]
    rfl
  | succ n ih =>
    intro f l hn hf
    cases l with
    | nil => rw [subst2F_nil]; rfl
    | cons c cs =>
      simp only [List.length_cons] at hn hf
      cases f with
      | zero => omega
      | succ f =>
        cases hm : matchP2 (c :: cs) with
        | none =>
          rw [subst2F_copy _ _ _ hm]
          have hnone' : matchP2 (c :: subst2F f cs) = none := by
            rcases subst2F_divergence n f cs (by omega) (by omega) with
              heq | ⟨P, tok, r5, S, h1, h2, h3, h4, h5, h6⟩
            · rw [heq]; exact hm
            · rw [h2]
              have hm' : matchP2 ((c :: P) ++ (tok ++ r5)) = none := by
                rw [show (c :: P) ++ (tok ++ r5) = c :: (P ++ tok ++ r5) from by simp, ← h1]
                exact hm
              have ht := matchP2_none_transfer (c :: P) tok r5 S h3 h4 h5 h6 hm'
              rw [show c :: (P ++ marker ++ S) = (c :: P) ++ (marker ++ S) from by simp]
              exact ht
          rw [subst2_eq_of_none _ _ hnone', ih f cs (by omega) (by omega)]
        | some v =>
          obtain ⟨g1, tok, r5⟩ := v
          obtain ⟨A, W1, B, W2, hl, hg1, hFA, hW1, hFB, hW2ne, hW2, htokne, htokall, hwsr⟩ :=
            matchP2_some_decomp _ _ _ _ hm
          have hlen := matchP2_some_len _ _ _ _ hm
          simp only [List.length_cons] at hlen
          rw [subst2F_match _ _ _ _ _ _ hm]
          have hk2 := K2_full A W1 B W2 (subst2F f r5) hFA hW1 hFB hW2ne hW2
            (wsHead_subst2F _ _ hwsr)
          rw [← hg1] at hk2
          rw [List.append_assoc, subst2_eq_of_match _ _ _ _ hk2,
            ih f r5 (by omega) (by omega), List.append_assoc]

def anyMatch1 : List Char → Bool
  | [] => false
  | c :: cs => (matchP1 (c :: cs)).isSome || anyMatch1 cs

def anyMatch2 : List Char → Bool
  | [] => false
  | c :: cs => (matchP2 (c :: cs)).isSome || anyMatch2 cs

theorem subst1F_id_of_noMatch : ∀ (l : List Char) (f : Nat), anyMatch1 l = false →
    subst1F f l = l := by
  intro l
  induction l with
  | nil => intro f _; rw [subst1F_nil]
  | cons c cs ih =>
    intro f h
    simp only [anyMatch1, Bool.or_eq_false_iff] at h
    cases f with
    | zero => rfl
    | succ f =>
      cases hm : matchP1 (c :: cs) with
      | none => rw [subst1F_copy _ _ _ hm, ih f h.2]
      | some v => rw [hm] at h; simp at h

theorem subst2F_id_of_noMatch : ∀ (l : List Char) (f : Nat), anyMatch2 l = false →
    subst2F f l = l := by
  intro l
  induction l with
  | nil => intro f _; rw [subst2F_nil]
  | cons c cs ih =>
    intro f h
    simp only [anyMatch2, Bool.or_eq_false_iff] at h
    cases f with
    | zero => rfl
    | succ f =>
      cases hm : matchP2 (c :: cs) with
      | none => rw [subst2F_copy _ _ _ hm, ih f h.2]
      | some v => rw [hm] at h; simp at h

/-- C10: `redact_possible_secrets_from_code` is idempotent — redacting an
already-redacted string is a no-op (`redact (redact x) = redact x` for every
string `x`) — and frame-preserving: a string in which neither the
`-u user:secret` pattern nor the `Authorization: Bearer token` pattern matches
at any position is returned byte-for-byte unchanged. -/
theorem redact_idempotent_frame (x : List Char) :
    redact_possible_secrets_from_code (redact_possible_secrets_from_code x)
      = redact_possible_secrets_from_code x
    ∧ (anyMatch1 x = false → anyMatch2 x = false →
        redact_possible_secrets_from_code x = x) := by
  constructor
  · by_cases hx : x.isEmpty = true
    · have hid : redact_possible_secrets_from_code x = x := by
        rw [redact_possible_secrets_from_code, if_pos hx]
      rw [hid, hid]
    · have hx' : x ≠ [] := by
        cases x with
        | nil => simp at hx
        | cons c cs => simp
      have hy : redact_possible_secrets_from_code x = subst2 (subst1 x) := by
        rw [redact_possible_secrets_from_code, if_neg hx]
      have hyne : subst2 (subst1 x) ≠ [] := subst2_ne_nil _ (subst1_ne_nil _ hx')
      have hyE : ¬ ((subst2 (subst1 x)).isEmpty = true) :=
        isEmpty_false_of_ne_nil _ hyne
      have hAFy : AF (subst2 (subst1 x)) :=
        AF_subst2F (subst1 x).length (subst1 x).length (subst1 x) le_rfl le_rfl
          (AF_subst1 x)
      have hfix1 : subst1 (subst2 (subst1 x)) = subst2 (subst1 x) := AF_fix _ hAFy
      have hfix2 : subst2 (subst2 (subst1 x)) = subst2 (subst1 x) :=
        subst2_idemF (subst1 x).length (subst1 x).length (subst1 x) le_rfl le_rfl
      rw [hy, redact_possible_secrets_from_code, if_neg hyE, hfix1, hfix2]
  · intro h1 h2
    by_cases hx : x.isEmpty = true
    · rw [redact_possible_secrets_from_code, if_pos hx]
    · rw [redact_possible_secrets_from_code, if_neg hx,
        show subst1 x = x from subst1F_id_of_noMatch x x.length h1,
        show subst2 x = x from subst2F_id_of_noMatch x x.length h2]

theorem redact_idempotent_frame_witness :
    anyMatch1 ("curl https://x".data) = false
    ∧ anyMatch2 ("curl https://x".data) = false
    ∧ redact_possible_secrets_from_code ("curl https://x".data) = "curl https://x".data :=
  ⟨by decide, by decide,
    (redact_idempotent_frame ("curl https://x".data)).2 (by decide) (by decide)⟩

end Rag
